import Mathlib

/-
Verification development for the FRMR-to-OSCAL processor
(FR_docs_to_OSCAL/process_frmr_to_oscal.py).

Strings are modelled as lists of characters (Python str methods such as
lower, split, replace, startswith are modelled character by character over
the ASCII range that the processor's identifiers and markers use).
JSON documents are modelled by an inductive Json type; Python dict /
list / str semantics (truthiness, membership, get, iteration) are made
explicit, and code paths on which Python raises an exception are modelled
with Except.
-/

namespace FRMR

/-! ### Character-level utilities -/

/-- ASCII lowercasing of one character, as Python str.lower acts on the
ASCII range: uppercase letters A-Z (codes 65-90) map 32 codes up, all
other characters are unchanged. -/
def lowerChar (c : Char) : Char :=
  if 65 ≤ c.toNat ∧ c.toNat ≤ 90 then Char.ofNat (c.toNat + 32) else c

/-- ASCII uppercasing of one character, as Python str.upper acts on the
ASCII range. -/
def upperChar (c : Char) : Char :=
  if 97 ≤ c.toNat ∧ c.toNat ≤ 122 then Char.ofNat (c.toNat - 32) else c

/-- Lowercase a character list. -/
def lowerStr (l : List Char) : List Char := l.map lowerChar

/-- Uppercase a character list. -/
def upperStr (l : List Char) : List Char := l.map upperChar

/-- Replacement of every underscore by a dash, modelling
Python str.replace of an underscore with a dash. -/
def replaceU (l : List Char) : List Char :=
  l.map fun c => if c = '_' then '-' else c

/-- Split a character list on the dash character, modelling Python
str.split with a dash separator: the result is always nonempty, and
splitting the empty string yields one empty piece. -/
def splitD : List Char → List (List Char)
  | [] => [[]]
  | c :: cs =>
    match splitD cs with
    | [] => [[]]
    | p :: ps => if c = '-' then [] :: p :: ps else (c :: p) :: ps

/-- Join pieces with a dash, modelling a dash-separated str.join. -/
def joinD : List (List Char) → List Char
  | [] => []
  | [p] => p
  | p :: q :: ps => p ++ '-' :: joinD (q :: ps)

/-- Last element of a piece list, with the empty string as the (never
used, since splitD is never empty) default; models Python
list indexing with -1 on the result of str.split. -/
def lastPiece (ps : List (List Char)) : List Char := ps.getLastD []

/-! ### IdNormalizer (normalize_control_id / normalize_frr_control_id) -/

/-- Core of normalize_control_id over character lists: strip the prefix
if present, split the remainder on dashes; with at least two parts, join
the lowercased parts with dashes; otherwise lowercase the remainder and
replace underscores with dashes. -/
def nciCore (raw pfx : List Char) : List Char :=
  let remainder := if pfx.isPrefixOf raw then raw.drop pfx.length else raw
  let parts := splitD remainder
  if 2 ≤ parts.length then joinD (parts.map lowerStr)
  else replaceU (lowerStr remainder)

/-- Core of normalize_frr_control_id over character lists: strip a
literal FRR- prefix if present, split the remainder on dashes; with at
least two parts, join the lowercased parts; otherwise fall back to the
lowercased standard, a dash, and the lowercased last dash-delimited
segment of the raw id. -/
def nfciCore (frrId standard : List Char) : List Char :=
  let remainder :=
    if ['F', 'R', 'R', '-'].isPrefixOf frrId then frrId.drop 4 else frrId
  let parts := splitD remainder
  if 2 ≤ parts.length then joinD (parts.map lowerStr)
  else lowerStr standard ++ '-' :: lowerStr (lastPiece (splitD frrId))

/-- Python function normalize_control_id(raw_id, prefix). -/
def normalize_control_id (rawId pfx : String) : String :=
  String.mk (nciCore rawId.toList pfx.toList)

/-- Python function normalize_frr_control_id(frr_id, standard). -/
def normalize_frr_control_id (frrId standard : String) : String :=
  String.mk (nfciCore frrId.toList standard.toList)

/-! ### ProseCleaner (clean_prose) -/

/-- ASCII alphanumeric test, the character class of A-Za-z0-9 used by the
three underscore regexes of clean_prose. -/
def isAlnumC (c : Char) : Bool :=
  decide (65 ≤ c.toNat ∧ c.toNat ≤ 90) || decide (97 ≤ c.toNat ∧ c.toNat ≤ 122)
    || decide (48 ≤ c.toNat ∧ c.toNat ≤ 57)

/-- ASCII whitespace, the regex class backslash-s restricted to ASCII
(space, tab, newline, carriage return, vertical tab, form feed). -/
def isSpaceC (c : Char) : Bool :=
  c == ' ' || c == '\t' || c == '\n' || c == '\r' || c.toNat == 11 || c.toNat == 12

/-- Regex word character (alphanumeric or underscore), as used by the
word-boundary assertions of the second and third underscore passes. -/
def isWordC (c : Char) : Bool := isAlnumC c || c == '_'

/-- Python str.strip over ASCII whitespace: drop leading and trailing
whitespace characters. -/
def pyStrip (l : List Char) : List Char :=
  ((l.dropWhile isSpaceC).reverse.dropWhile isSpaceC).reverse

/-- Strip one matching pair of wrapping quote characters, modelling the
startswith/endswith check followed by slicing with text[1:-1]. -/
def stripPair (q : Char) (l : List Char) : List Char :=
  if l.head? = some q ∧ l.getLast? = some q then (l.drop 1).dropLast else l

/-- Scan for the non-greedy close of a bold span: the shortest nonempty
run of non-newline characters followed by two asterisks. Returns the run
and the remainder after the closing asterisks. -/
def findBoldClose : List Char → Option (List Char × List Char)
  | [] => none
  | c :: cs =>
    if c = '\n' then none
    else if cs.head? = some '*' ∧ cs.tail.head? = some '*' then
      some ([c], cs.tail.tail)
    else
      match findBoldClose cs with
      | some (content, after) => some (c :: content, after)
      | none => none

/-- Left-to-right substitution pass unwrapping each bold span to its
content, modelling re.sub with the double-asterisk pattern. The fuel
argument (instantiated with the input length, which bounds the number of
scanning steps since every step consumes at least one character) makes
the recursion structural; exhausted fuel returns the rest unchanged. -/
def boldGo : Nat → List Char → List Char
  | 0, l => l
  | _ + 1, [] => []
  | fuel + 1, c :: cs =>
    if c = '*' ∧ cs.head? = some '*' then
      match findBoldClose cs.tail with
      | some (content, after) => content ++ boldGo fuel after
      | none => c :: boldGo fuel cs
    else c :: boldGo fuel cs

/-- Greedy close of the first underscore pass: the longest split of the
input as a run of alphanumerics and spaces, one final alphanumeric, and a
literal underscore; returns the consumed phrase tail and the remainder
after the underscore. Preferring the deeper (longer) close models the
greedy star of the regex. -/
def greedyClose1 : List Char → Option (List Char × List Char)
  | [] => none
  | c :: cs =>
    match (if isAlnumC c || isSpaceC c then
            match greedyClose1 cs with
            | some (m, r) => some (c :: m, r)
            | none => none
           else none : Option (List Char × List Char)) with
    | some res => some res
    | none =>
      if isAlnumC c ∧ cs.head? = some '_' then some ([c], cs.tail) else none

/-- First underscore pass: remove a pair of underscores wrapping a phrase
that starts and ends with an alphanumeric (no word-boundary anchors, so
it also fires inside identifiers). -/
def pass1Go : Nat → List Char → List Char
  | 0, l => l
  | _ + 1, [] => []
  | fuel + 1, c :: cs =>
    if c = '_' then
      match cs with
      | c0 :: rest =>
        if isAlnumC c0 then
          match greedyClose1 rest with
          | some (m, after) => (c0 :: m) ++ pass1Go fuel after
          | none => c :: pass1Go fuel cs
        else c :: pass1Go fuel cs
      | [] => [c]
    else c :: pass1Go fuel cs

/-- Greedy close of the second underscore pass: phrase tail as in the
first pass but closed by a word boundary (end of input or a non-word
character) instead of an underscore; the boundary character is not
consumed. -/
def greedyClose2 : List Char → Option (List Char × List Char)
  | [] => none
  | c :: cs =>
    match (if isAlnumC c || isSpaceC c then
            match greedyClose2 cs with
            | some (m, r) => some (c :: m, r)
            | none => none
           else none : Option (List Char × List Char)) with
    | some res => some res
    | none =>
      if isAlnumC c then
        match cs with
        | [] => some ([c], [])
        | d :: _ => if ¬ isWordC d then some ([c], cs) else none
      else none

/-- Second underscore pass: remove a leading underscore before a phrase
when a word boundary precedes the underscore (start of input or previous
character not a word character) and a word boundary follows the phrase.
The boolean argument tracks whether the previous character was a word
character. -/
def pass2Go : Nat → Bool → List Char → List Char
  | 0, _, l => l
  | _ + 1, _, [] => []
  | fuel + 1, prevW, c :: cs =>
    if c = '_' then
      if prevW then c :: pass2Go fuel true cs
      else
        match cs with
        | c0 :: rest =>
          if isAlnumC c0 then
            match greedyClose2 rest with
            | some (m, after) => (c0 :: m) ++ pass2Go fuel true after
            | none => c :: pass2Go fuel true cs
          else c :: pass2Go fuel true cs
        | [] => [c]
    else c :: pass2Go fuel (isWordC c) cs

/-- Deeper-close step of the third underscore pass: extend the phrase by
one alphanumeric-or-space character when the rest closed. -/
def gc3Deeper (c : Char) (r : Option (List Char × List Char)) :
    Option (List Char × List Char) :=
  if isAlnumC c || isSpaceC c then
    match r with
    | some (m, r2) => some (c :: m, r2)
    | none => none
  else none

/-- Immediate close of the third underscore pass: one final alphanumeric,
then the literal underscore, then a word boundary (end of input or a
non-word character, not consumed). -/
def gc3Close (c : Char) (cs : List Char) : Option (List Char × List Char) :=
  if isAlnumC c ∧ cs.head? = some '_' then
    match cs.tail with
    | [] => some ([c], [])
    | d :: _ => if ¬ isWordC d then some ([c], cs.tail) else none
  else none

/-- Greedy close of the third underscore pass: phrase tail followed by a
literal underscore which must itself be followed by a word boundary;
prefers the deeper (longer) close, modelling the greedy star. -/
def greedyClose3 : List Char → Option (List Char × List Char)
  | [] => none
  | c :: cs =>
    match gc3Deeper c (greedyClose3 cs) with
    | some res => some res
    | none => gc3Close c cs

/-- Third underscore pass: remove a trailing underscore after a phrase
when a word boundary precedes the phrase and a word boundary follows the
underscore. -/
def pass3Go : Nat → Bool → List Char → List Char
  | 0, _, l => l
  | _ + 1, _, [] => []
  | fuel + 1, prevW, c :: cs =>
    if ¬ prevW ∧ isAlnumC c then
      match greedyClose3 cs with
      | some (m, after) => (c :: m) ++ pass3Go fuel true after
      | none => c :: pass3Go fuel (isWordC c) cs
    else c :: pass3Go fuel (isWordC c) cs

/-- Core of clean_prose over character lists: empty input is returned as
is; otherwise strip whitespace, strip a wrapping pair of double then
single quotes, unwrap bold markers, and run the three underscore
passes in order. -/
def cleanCore (l : List Char) : List Char :=
  if l = [] then l
  else
    let t1 := pyStrip l
    let t2 := stripPair '"' t1
    let t3 := stripPair '\'' t2
    let t4 := boldGo t3.length t3
    let t5 := pass1Go t4.length t4
    let t6 := pass2Go t5.length false t5
    pass3Go t6.length false t6

/-- Python function clean_prose(text) for string input. -/
def clean_prose (s : String) : String := String.mk (cleanCore s.toList)

/-- Python function generate_title(name, control_id) for a string name:
use the cleaned stripped name when the result is nonempty, else the
uppercased control id. -/
def generate_title (name controlId : String) : String :=
  if name ≠ "" ∧ pyStrip name.toList ≠ [] then
    let cleaned := cleanCore (pyStrip name.toList)
    if cleaned ≠ [] then String.mk cleaned else String.mk (upperStr controlId.toList)
  else String.mk (upperStr controlId.toList)

/-! ### JSON values and Python semantics -/

/-- Parsed JSON values, as Python json.load produces them (floats are not
needed by any claim and are omitted). Objects are insertion-ordered lists
of key-value pairs; objects produced by the Python json parser have
unique keys. -/
inductive Json where
  | null
  | bool (b : Bool)
  | num (n : Int)
  | str (s : String)
  | arr (elems : List Json)
  | obj (fields : List (String × Json))

/-- Python exceptions that the modelled code paths can raise. -/
inductive PyErr where
  | typeError
  | attributeError
  | keyError
deriving DecidableEq, Repr

/-- Python truthiness of a JSON value. -/
def pyTruthy : Json → Bool
  | .null => false
  | .bool b => b
  | .num n => n != 0
  | .str s => s ≠ ""
  | .arr xs => ¬ xs.isEmpty
  | .obj fs => ¬ fs.isEmpty

/-- Lookup of a key in an association list (first occurrence; parsed
objects have unique keys). -/
def lookupKey {α : Type} : List (String × α) → String → Option α
  | [], _ => none
  | (k, v) :: fs, key => if k = key then some v else lookupKey fs key

/-- Key membership in an object's field list. -/
def hasKey (fs : List (String × Json)) (key : String) : Bool :=
  (lookupKey fs key).isSome

/-- Python dict assignment d[k] = v: replace the value at the first
occurrence of the key, else append the binding. -/
def setKey : List (String × Json) → String → Json → List (String × Json)
  | [], key, v => [(key, v)]
  | (k, w) :: fs, key, v =>
    if k = key then (k, v) :: fs else (k, w) :: setKey fs key v

/-- Contiguous substring test over character lists, modelling the Python
in operator on strings. -/
def strInfix (needle : List Char) : List Char → Bool
  | [] => needle.isEmpty
  | c :: t => needle.isPrefixOf (c :: t) || strInfix needle t

/-- Python membership test of a string in a JSON value: key membership
for dicts, element equality for lists, substring for strings, TypeError
for values that are not containers. -/
def pyContainsStr (s : String) : Json → Except PyErr Bool
  | .obj fs => .ok (hasKey fs s)
  | .arr xs =>
    .ok (xs.any fun x => match x with | .str t => t == s | _ => false)
  | .str t => .ok (strInfix s.toList t.toList)
  | _ => .error .typeError

/-- Python subscription with a string key: dict lookup (KeyError when
missing), TypeError on lists, strings and scalars. -/
def pyIndexStr (s : String) : Json → Except PyErr Json
  | .obj fs =>
    match lookupKey fs s with
    | some v => .ok v
    | none => .error .keyError
  | _ => .error .typeError

/-- Python dict.get(key, default) on a JSON value: AttributeError when
the value is not a dict. -/
def pyGet (j : Json) (key : String) (dflt : Json) : Except PyErr Json :=
  match j with
  | .obj fs => .ok ((lookupKey fs key).getD dflt)
  | _ => .error .attributeError

/-- Python dict.get(key, default) on a value already known to be a dict,
given by its field list. -/
def dictGetD (fs : List (String × Json)) (key : String) (dflt : Json) : Json :=
  (lookupKey fs key).getD dflt

/-- Python iteration over a JSON value, as a for loop sees it: list
elements, dict keys, the characters of a string as one-character strings,
TypeError for non-iterable values. -/
def pyIterate : Json → Except PyErr (List Json)
  | .arr xs => .ok xs
  | .obj fs => .ok (fs.map fun f => .str f.1)
  | .str t => .ok (t.toList.map fun c => .str (String.mk [c]))
  | _ => .error .typeError

/-! ### FormatDetector (detect_format_version) -/

/-- Python function detect_format_version(data): rule 1, a string-valued
version field in the info block yields consolidated; rule 2, a
list-valued releases field in info yields legacy; rule 3, a FRD or KSI
top-level key (checked again via an intersection with the set FRD, KSI,
FRR) yields consolidated; rule 4, default legacy. Membership and
subscript on a non-dict info block follow Python semantics and can raise
TypeError. -/
def detect_format_version (data : Json) : Except PyErr String :=
  match data with
  | .obj fs =>
    let info := dictGetD fs "info" (.obj [])
    match pyContainsStr "version" info with
    | .error e => .error e
    | .ok hasV =>
      match (if hasV then
              match pyIndexStr "version" info with
              | .error e => .error e
              | .ok (.str _) => .ok true
              | .ok _ => .ok false
             else .ok false : Except PyErr Bool) with
      | .error e => .error e
      | .ok true => .ok "consolidated"
      | .ok false =>
        match pyContainsStr "releases" info with
        | .error e => .error e
        | .ok hasR =>
          match (if hasR then
                  match pyIndexStr "releases" info with
                  | .error e => .error e
                  | .ok (.arr _) => .ok true
                  | .ok _ => .ok false
                 else .ok false : Except PyErr Bool) with
          | .error e => .error e
          | .ok true => .ok "legacy"
          | .ok false =>
            if (hasKey fs "FRD" || hasKey fs "KSI")
                && (hasKey fs "FRD" || hasKey fs "KSI" || hasKey fs "FRR") then
              .ok "consolidated"
            else .ok "legacy"
  | _ => .error .attributeError

/-! ### Statement resolution (get_indicator_statement) -/

/-- Statement text of one varies_by_level entry as the fallback loop of
get_indicator_statement extracts it: nested statement field of a dict
entry, a string entry itself, the empty string otherwise. -/
def stmtOfLevelData : Json → Json
  | .obj o => dictGetD o "statement" (.str "")
  | .str s => .str s
  | _ => .str ""

/-- Fallback loop of get_indicator_statement: walk the level names in
order and return the first present entry whose extracted statement is
truthy; an entry with an empty statement does not stop the walk. -/
def fallbackScan (vs : List (String × Json)) : List String → Json
  | [] => .str ""
  | lvl :: rest =>
    match lookupKey vs lvl with
    | some ld =>
      let stmt := stmtOfLevelData ld
      if pyTruthy stmt then stmt else fallbackScan vs rest
    | none => fallbackScan vs rest

/-- Python function get_indicator_statement(indicator, level), on the
field list of its dict argument: a truthy direct statement field wins;
else, with a truthy dict varies_by_level, a present requested level that
is a dict or string returns its (possibly empty) statement immediately,
and otherwise the moderate, low, high fallback walk runs. -/
def get_indicator_statement (fs : List (String × Json)) (level : String) : Json :=
  let statement := dictGetD fs "statement" (.str "")
  if pyTruthy statement then statement
  else
    match dictGetD fs "varies_by_level" .null with
    | .obj vs =>
      if vs.isEmpty then .str ""
      else
        match lookupKey vs level with
        | some (.obj o) => dictGetD o "statement" (.str "")
        | some (.str s) => .str s
        | some _ => fallbackScan vs ["moderate", "low", "high"]
        | none => fallbackScan vs ["moderate", "low", "high"]
    | _ => .str ""

/-! ### ImpactResolver (extract_impact_from_indicator) -/

/-- Check of the Optional marker in a level statement: a truthy statement
containing the bold Optional marker or the bare Optional marker. The
Python in operator raises TypeError when the statement value is a truthy
non-container. -/
def optionalMarkerCheck (stmt : Json) : Except PyErr Bool :=
  if pyTruthy stmt then do
    let a ← pyContainsStr "**Optional:**" stmt
    if a then pure true else pyContainsStr "Optional:" stmt
  else pure false

/-- Value assigned to one impact level inside the varies_by_level branch
of extract_impact_from_indicator: an absent level keeps the initial
false; a present level is true unless its statement carries the Optional
marker. -/
def extractImpactLevel (vs : List (String × Json)) (lvl : String) : Except PyErr Json :=
  match lookupKey vs lvl with
  | none => pure (.bool false)
  | some ld => do
    let c ← optionalMarkerCheck (stmtOfLevelData ld)
    pure (.bool (¬ c))

/-- Branches 2 to 4 of extract_impact_from_indicator, taken when there is
no truthy dict varies_by_level: a truthy direct statement applies to all
three levels; else an explicit dict impact field supplies each level with
a false default; else all three levels are false. -/
def impactNoVaries (fs : List (String × Json)) : Json :=
  if pyTruthy (dictGetD fs "statement" .null) then
    .obj [("low", .bool true), ("moderate", .bool true), ("high", .bool true)]
  else
    match dictGetD fs "impact" (.obj []) with
    | .obj ofs =>
      .obj [("low", dictGetD ofs "low" (.bool false)),
            ("moderate", dictGetD ofs "moderate" (.bool false)),
            ("high", dictGetD ofs "high" (.bool false))]
    | _ => .obj [("low", .bool false), ("moderate", .bool false), ("high", .bool false)]

/-- Python function extract_impact_from_indicator(indicator), on the
field list of its dict argument. -/
def extract_impact_from_indicator (fs : List (String × Json)) : Except PyErr Json :=
  match dictGetD fs "varies_by_level" .null with
  | .obj vs =>
    if vs.isEmpty then pure (impactNoVaries fs)
    else do
      let lo ← extractImpactLevel vs "low"
      let mo ← extractImpactLevel vs "moderate"
      let hi ← extractImpactLevel vs "high"
      pure (.obj [("low", lo), ("moderate", mo), ("high", hi)])
  | _ => pure (impactNoVaries fs)

/-- Impact filling of the legacy parsers: take the impact field when it
is a dict (else an empty dict) and append a false entry for each of the
three levels that is missing, preserving any existing entries and extra
keys verbatim. -/
def legacyFillImpact (fs : List (String × Json)) : Json :=
  let base : List (String × Json) :=
    match dictGetD fs "impact" (.obj []) with
    | .obj ofs => ofs
    | _ => []
  let b1 := if hasKey base "low" then base else base ++ [("low", .bool false)]
  let b2 := if hasKey b1 "moderate" then b1 else b1 ++ [("moderate", .bool false)]
  let b3 := if hasKey b2 "high" then b2 else b2 ++ [("high", .bool false)]
  .obj b3

/-! ### Shared record shaping of the legacy parsers -/

/-- Python function clean_prose on an arbitrary value: falsy values are
returned unchanged by the early return, strings are cleaned, and truthy
non-strings raise AttributeError at the strip call. -/
def clean_prose_py (j : Json) : Except PyErr Json :=
  if ¬ pyTruthy j then pure j
  else match j with
    | .str s => pure (.str (String.mk (cleanCore s.toList)))
    | _ => .error .attributeError

/-- Python function generate_title on an arbitrary name value: a falsy
name falls back to the uppercased control id, a string name goes through
generate_title, a truthy non-string raises AttributeError at the strip
call. -/
def generate_title_py (name : Json) (controlId : String) : Except PyErr String :=
  match name with
  | .str s => pure (generate_title s controlId)
  | _ =>
    if pyTruthy name then .error .attributeError
    else pure (String.mk (upperStr controlId.toList))

/-- One OSCAL part dict as the parsers build it. -/
structure Part where
  pid : String
  pname : String
  prose : Json

/-- One OSCAL control dict as the parsers build it. -/
structure Control where
  cid : String
  title : String
  parts : List Part

/-- One aggregated control record: group id, group title (an arbitrary
value under Python or-chaining) and the control itself. -/
structure Entry where
  groupId : String
  groupTitle : Json
  control : Control

/-- Common result shape of both parsers: the ordered control list and the
impact and following-information mappings keyed by control id. -/
structure ParseOut where
  controls : List Entry
  impacts : List (String × Json)
  following : List (String × Json)

/-- Empty parser result. -/
def ParseOut.empty : ParseOut := ⟨[], [], []⟩

/-- Fold of an effectful step over a list, stopping at the first raised
exception, as a Python for loop executes its body. -/
def foldE {σ α : Type} (f : σ → α → Except PyErr σ) : σ → List α → Except PyErr σ
  | st, [] => pure st
  | st, x :: xs =>
    match f st x with
    | .ok st' => foldE f st' xs
    | .error e => .error e

/-- Item parts built from the following-information entries, numbered
from the given index, each with cleaned prose. -/
def buildItemParts (controlId : String) : Nat → List Json → Except PyErr (List Part)
  | _, [] => pure []
  | i, x :: xs => do
    let p ← clean_prose_py x
    let rest ← buildItemParts controlId (i + 1) xs
    pure (⟨controlId ++ "_smt.item." ++ toString i, "item", p⟩ :: rest)

/-- Shared per-record body of both legacy parsers, run after the id
checks: skip the record when the statement is falsy, else clean the
statement, build the title, fill the legacy impact dict, store the impact
and (when truthy) raw following information under the control id, and
append the control entry with its statement part and item parts. -/
def legacyRecordBody (controlId gid : String) (gtitle : Json)
    (rfs : List (String × Json)) (st : ParseOut) : Except PyErr ParseOut :=
  let statement := dictGetD rfs "statement" (.str "")
  if ¬ pyTruthy statement then pure st
  else do
    let cleanedStatement ← clean_prose_py statement
    let title ← generate_title_py (dictGetD rfs "name" (.str "")) controlId
    let impact := legacyFillImpact rfs
    let impacts' := setKey st.impacts controlId impact
    let followingInfo := dictGetD rfs "following_information" (.arr [])
    let following' :=
      if pyTruthy followingInfo then setKey st.following controlId followingInfo
      else st.following
    let baseParts : List Part := [⟨controlId ++ "_smt", "statement", cleanedStatement⟩]
    let parts ←
      if pyTruthy followingInfo then do
        let items ← pyIterate followingInfo
        let itemParts ← buildItemParts controlId 1 items
        pure (baseParts ++ itemParts)
      else pure baseParts
    let entry : Entry := ⟨gid, gtitle, ⟨controlId, title, parts⟩⟩
    pure ⟨st.controls ++ [entry], impacts', following'⟩

/-! ### Legacy KSI parser (parse_ksi_indicators_legacy) -/

/-- Fallback group-title table KSI_GROUP_TITLES of the processor. -/
def KSI_GROUP_TITLES : List (String × String) :=
  [("CNA", "Cloud Native Architecture"),
   ("SVC", "Service Configuration"),
   ("IAM", "Identity and Access Management"),
   ("MLA", "Monitoring, Logging, and Auditing"),
   ("CMT", "Change Management"),
   ("PIY", "Policy and Inventory"),
   ("SCR", "Supply Chain Risk"),
   ("CED", "Cybersecurity Education"),
   ("RPL", "Recovery Planning"),
   ("INR", "Incident Response"),
   ("AFR", "Authorization by FedRAMP"),
   ("TPR", "Third-Party Information Resources")]

/-- Group title of a legacy KSI section: the or-chain of the name field,
the theme field, and the fallback table keyed by group id. -/
def legacyGroupTitle (sfs : List (String × Json)) (gid : String) : Json :=
  let n := dictGetD sfs "name" .null
  if pyTruthy n then n
  else
    let t := dictGetD sfs "theme" .null
    if pyTruthy t then t
    else .str ((lookupKey KSI_GROUP_TITLES gid).getD gid)

/-- Per-indicator step of the legacy KSI parser: skip non-dict records,
records with a falsy or non KSI- prefixed string id, and retired records;
a truthy non-string id raises AttributeError at the startswith call. -/
def ksiIndicatorStep (gid : String) (gtitle : Json) (st : ParseOut) (ind : Json) :
    Except PyErr ParseOut :=
  match ind with
  | .obj ifs =>
    let idv := dictGetD ifs "id" (.str "")
    if ¬ pyTruthy idv then pure st
    else
      match idv with
      | .str indicatorId =>
        if ¬ "KSI-".toList.isPrefixOf indicatorId.toList then pure st
        else if pyTruthy (dictGetD ifs "retired" (.bool false)) then pure st
        else legacyRecordBody (normalize_control_id indicatorId "KSI-") gid gtitle ifs st
      | _ => .error .attributeError
  | _ => pure st

/-- Per-section step of the legacy KSI parser: skip sections that are not
dicts or lack an indicators key, then iterate the indicators value. -/
def ksiSectionStep (st : ParseOut) : String × Json → Except PyErr ParseOut
  | (secKey, .obj sfs) =>
    if ¬ hasKey sfs "indicators" then pure st
    else do
      let gtitle := legacyGroupTitle sfs secKey
      let inds ← pyIterate (dictGetD sfs "indicators" (.arr []))
      foldE (ksiIndicatorStep secKey gtitle) st inds
  | _ => pure st

/-- Python function parse_ksi_indicators_legacy(data). -/
def parse_ksi_indicators_legacy (data : Json) : Except PyErr ParseOut := do
  let has ← pyContainsStr "KSI" data
  if ¬ has then pure ParseOut.empty
  else do
    let ksiData ← pyIndexStr "KSI" data
    match ksiData with
    | .obj sections => foldE ksiSectionStep ParseOut.empty sections
    | _ => .error .attributeError

/-! ### Legacy FRR parser (parse_frr_requirements_legacy) -/

/-- Uppercase A-Z test. -/
def isUpperAZ (c : Char) : Bool := decide (65 ≤ c.toNat ∧ c.toNat ≤ 90)

/-- Match of the filename pattern FRMR dot, three uppercase letters, dot
at the head of the list, returning the captured three letters. -/
def tryFrmrAt : List Char → Option (List Char)
  | 'F' :: 'R' :: 'M' :: 'R' :: '.' :: a :: b :: c :: '.' :: _ =>
    if isUpperAZ a && isUpperAZ b && isUpperAZ c then some [a, b, c] else none
  | _ => none

/-- Leftmost search of the filename pattern, modelling re.search with the
FRMR standard pattern. -/
def findFrmrStandard : List Char → Option (List Char)
  | [] => none
  | c :: cs =>
    match tryFrmrAt (c :: cs) with
    | some s => some s
    | none => findFrmrStandard cs

/-- Per-requirement step of the legacy FRR parser, threading the set of
already seen raw requirement ids: skip non-dict records, falsy or non
FRR- prefixed string ids, and already seen ids; a truthy non-string id
raises AttributeError at the startswith call. A new id is recorded as
seen before the statement check. -/
def frrReqStep (standard gid : String) (gtitle : Json)
    (st : ParseOut × List String) (req : Json) :
    Except PyErr (ParseOut × List String) :=
  match req with
  | .obj rfs =>
    let idv := dictGetD rfs "id" (.str "")
    if ¬ pyTruthy idv then pure st
    else
      match idv with
      | .str reqId =>
        if ¬ "FRR-".toList.isPrefixOf reqId.toList then pure st
        else if reqId ∈ st.2 then pure st
        else do
          let out ← legacyRecordBody (normalize_frr_control_id reqId standard)
            gid gtitle rfs st.1
          pure (out, st.2 ++ [reqId])
      | _ => .error .attributeError
  | _ => pure st

/-- Per-section step of the legacy FRR parser: skip sections that are not
dicts or lack a requirements key, then iterate the requirements value. -/
def frrSectionStep (standard gid : String) (gtitle : Json)
    (st : ParseOut × List String) : String × Json →
    Except PyErr (ParseOut × List String)
  | (_, .obj sfs) =>
    if ¬ hasKey sfs "requirements" then pure st
    else do
      let reqs ← pyIterate (dictGetD sfs "requirements" (.arr []))
      foldE (frrReqStep standard gid gtitle) st reqs
  | _ => pure st

/-- Python function parse_frr_requirements_legacy(data, filename): empty
result when the FRR key is absent, when the filename lacks the FRMR
standard pattern, or when the FRR value (a dict) lacks a truthy dict
entry under the extracted standard. -/
def parse_frr_requirements_legacy (data : Json) (filename : String) :
    Except PyErr ParseOut := do
  let has ← pyContainsStr "FRR" data
  if ¬ has then pure ParseOut.empty
  else
    match findFrmrStandard filename.toList with
    | none => pure ParseOut.empty
    | some stdChars => do
      let standard := String.mk stdChars
      let info ← pyGet data "info" (.obj [])
      let gtitle ← pyGet info "name" (.str standard)
      let frrData ← pyIndexStr "FRR" data
      let standardFrr ← pyGet frrData standard .null
      match standardFrr with
      | .obj sections =>
        if (Json.obj sections |> pyTruthy) then do
          let res ← foldE (frrSectionStep standard standard gtitle)
            (ParseOut.empty, []) sections
          pure res.1
        else pure ParseOut.empty
      | _ => pure ParseOut.empty

/-! ### Canonical serialization and ChangeDetector (content_has_changed) -/

mutual

/-- Structural equality of JSON values, modelling equality of their
serialized texts (two parsed JSON values without duplicate keys have
equal json.dumps outputs exactly when they are structurally equal in the
same key order). -/
def jsonBeq : Json → Json → Bool
  | .null, .null => true
  | .bool a, .bool b => a == b
  | .num a, .num b => a == b
  | .str a, .str b => a == b
  | .arr a, .arr b => jsonListBeq a b
  | .obj a, .obj b => jsonFieldsBeq a b
  | _, _ => false

/-- Elementwise structural equality of JSON lists. -/
def jsonListBeq : List Json → List Json → Bool
  | [], [] => true
  | a :: as, b :: bs => jsonBeq a b && jsonListBeq as bs
  | _, _ => false

/-- Pairwise structural equality of JSON object field lists. -/
def jsonFieldsBeq : List (String × Json) → List (String × Json) → Bool
  | [], [] => true
  | (k, v) :: as, (k2, v2) :: bs => k == k2 && jsonBeq v v2 && jsonFieldsBeq as bs
  | _, _ => false

end

/-- Python string comparison (lexicographic by code point), as sorted
uses it. -/
def charsLt : List Char → List Char → Bool
  | [], [] => false
  | [], _ :: _ => true
  | _ :: _, [] => false
  | a :: as, b :: bs =>
    if a.toNat < b.toNat then true
    else if b.toNat < a.toNat then false
    else charsLt as bs

/-- Strict string order wrapper. -/
def strLtPy (a b : String) : Bool := charsLt a.toList b.toList

/-- Stable insertion into a string list sorted ascending. -/
def insertSorted (x : String) : List String → List String
  | [] => [x]
  | y :: ys => if strLtPy x y then x :: y :: ys else y :: insertSorted x ys

/-- Python sorted on a list of strings (stable ascending sort). -/
def sortStrings (l : List String) : List String :=
  l.foldl (fun acc x => insertSorted x acc) []

/-- Stable insertion of a field into a key-sorted field list. -/
def insertField (x : String × Json) : List (String × Json) → List (String × Json)
  | [] => [x]
  | y :: ys => if strLtPy x.1 y.1 then x :: y :: ys else y :: insertField x ys

/-- Sort a field list by key, as json.dumps with sorted keys writes it. -/
def sortFields (l : List (String × Json)) : List (String × Json) :=
  l.foldl (fun acc x => insertField x acc) []

mutual

/-- Canonical form of a JSON value under serialization with sorted keys:
object keys sorted recursively, everything else unchanged. Two values
have equal sorted-keys serializations exactly when their canonical forms
are structurally equal. -/
def canonJson : Json → Json
  | .null => .null
  | .bool b => .bool b
  | .num n => .num n
  | .str s => .str s
  | .arr xs => .arr (canonList xs)
  | .obj fs => .obj (sortFields (canonFields fs))

/-- Canonical forms of the values of a JSON list. -/
def canonList : List Json → List Json
  | [] => []
  | x :: xs => canonJson x :: canonList xs

/-- Canonical forms of the values of a field list (key order untouched
here; sorting happens in canonJson). -/
def canonFields : List (String × Json) → List (String × Json)
  | [] => []
  | (k, v) :: fs => (k, canonJson v) :: canonFields fs

end

/-- Removal of the first binding of a key, modelling dict.pop. -/
def removeKey : List (String × Json) → String → List (String × Json)
  | [], _ => []
  | (k, v) :: fs, key => if k = key then fs else (k, v) :: removeKey fs key

/-- Pop the published and last-modified keys out of the metadata entry of
an artifact body. Built artifacts always carry a metadata dict; a missing
or non-dict metadata entry is left unchanged. -/
def stripMeta (fs : List (String × Json)) : List (String × Json) :=
  match lookupKey fs "metadata" with
  | some (.obj mfs) =>
    setKey fs "metadata" (.obj (removeKey (removeKey mfs "published") "last-modified"))
  | _ => fs

/-- Timestamp removal of content_has_changed: pop published and
last-modified from the metadata of the catalog entry when present, else
of the profile entry. Built artifacts always have the navigated path; on
other shapes the value is left unchanged. -/
def stripTimestamps (j : Json) : Json :=
  match j with
  | .obj fs =>
    match lookupKey fs "catalog" with
    | some (.obj cfs) => .obj (setKey fs "catalog" (.obj (stripMeta cfs)))
    | _ =>
      match lookupKey fs "profile" with
      | some (.obj pfs) => .obj (setKey fs "profile" (.obj (stripMeta pfs)))
      | _ => j
  | _ => j

/-- Python function content_has_changed(new_content, existing_content):
true when there is no (truthy) snapshot, else true exactly when the
candidate with timestamps removed and the stored snapshot differ under
serialization with sorted keys. The snapshot argument is stored by
get_existing_file_data with its timestamp fields already popped. -/
def content_has_changed (newContent : Json) (existing : Option Json) : Bool :=
  match existing with
  | none => true
  | some e =>
    if ¬ pyTruthy e then true
    else ! jsonBeq (canonJson (stripTimestamps newContent)) (canonJson e)

/-! ### CatalogBuilder / ProfileBuilder -/

/-- Timestamp pair of a prior artifact of the same version, as
get_existing_file_data reads it from the snapshot metadata (either value
can be null when the snapshot lacked the field). -/
structure Timestamps where
  published : Json
  lastModified : Json

/-- Deterministic catalog uuid. The Python code computes
uuid.uuid5(NAMESPACE_DNS, name); the hash is modelled as an injective
tagging of the name string, which preserves determinism and version
dependence; no claim depends on the hash value itself. -/
def uuid5Catalog (version : String) : String :=
  "uuid5:fedramp-20x-catalog-" ++ version

/-- Deterministic profile uuid, modelled like the catalog uuid. -/
def uuid5Profile (impactLevel version : String) : String :=
  "uuid5:fedramp-20x-" ++ impactLevel ++ "-profile-" ++ version

/-- JSON encoding of one part dict. -/
def Part.toJson (p : Part) : Json :=
  .obj [("id", .str p.pid), ("name", .str p.pname), ("prose", p.prose)]

/-- JSON encoding of one control dict. -/
def Control.toJson (c : Control) : Json :=
  .obj [("id", .str c.cid), ("title", .str c.title),
        ("parts", .arr (c.parts.map Part.toJson))]

/-- Association list update with arbitrary values (replace the first
binding or append). -/
def setKeyG {α : Type} : List (String × α) → String → α → List (String × α)
  | [], key, v => [(key, v)]
  | (k, w) :: fs, key, v =>
    if k = key then (k, v) :: fs else (k, w) :: setKeyG fs key v

/-- Group accumulation of build_oscal_catalog: each entry overwrites its
group's title and appends its control, new groups appear in first-seen
order. -/
def collectGroups (allControls : List Entry) : List (String × (Json × List Control)) :=
  allControls.foldl
    (fun acc e =>
      match lookupKey acc e.groupId with
      | some (_, cs) => setKeyG acc e.groupId (e.groupTitle, cs ++ [e.control])
      | none => acc ++ [(e.groupId, (e.groupTitle, [e.control]))])
    []

/-- Python function build_oscal_catalog(all_controls, version,
existing_timestamps, content_changed): groups sorted by group id,
published carried over from existing timestamps when present (else the
current instant, supplied as the now argument), last-modified set to the
current instant when content changed or no timestamps exist, else carried
over. Returns the catalog value and the catalog uuid. -/
def build_oscal_catalog (allControls : List Entry) (version : String)
    (existingTs : Option Timestamps) (contentChanged : Bool) (now : String) :
    Json × String :=
  let gps := collectGroups allControls
  let groups : List Json := (sortStrings (gps.map (·.1))).map fun gid =>
    match lookupKey gps gid with
    | some (title, cs) =>
      .obj [("id", .str gid), ("title", title),
            ("controls", .arr (cs.map Control.toJson))]
    | none => .null
  let published : Json :=
    match existingTs with
    | some ts => ts.published
    | none => .str now
  let lastModified : Json :=
    if contentChanged ∨ existingTs.isNone then .str now
    else match existingTs with
      | some ts => ts.lastModified
      | none => .str now
  (.obj [("catalog", .obj
      [("uuid", .str (uuid5Catalog version)),
       ("metadata", .obj
         [("title", .str ("FedRAMP 20x Catalog (v" ++ version ++ ")")),
          ("published", published),
          ("last-modified", lastModified),
          ("version", .str version),
          ("oscal-version", .str "1.1.2")]),
       ("groups", .arr groups)])],
   uuid5Catalog version)

/-- Python str.capitalize: first character uppercased, the rest
lowercased. -/
def pyCapitalize (s : String) : String :=
  match s.toList with
  | [] => ""
  | c :: cs => String.mk (upperChar c :: lowerStr cs)

/-- Python function build_oscal_profile(impact_level, control_ids,
catalog_uuid, version, existing_timestamps, content_changed): the
timestamp logic is identical to the catalog builder; the included
control ids are sorted lexicographically. -/
def build_oscal_profile (impactLevel : String) (controlIds : List String)
    (catalogUuid version : String) (existingTs : Option Timestamps)
    (contentChanged : Bool) (now : String) : Json :=
  let published : Json :=
    match existingTs with
    | some ts => ts.published
    | none => .str now
  let lastModified : Json :=
    if contentChanged ∨ existingTs.isNone then .str now
    else match existingTs with
      | some ts => ts.lastModified
      | none => .str now
  .obj [("profile", .obj
    [("uuid", .str (uuid5Profile impactLevel version)),
     ("metadata", .obj
       [("title", .str ("FedRAMP 20x " ++ pyCapitalize impactLevel ++ " Impact Profile")),
        ("published", published),
        ("last-modified", lastModified),
        ("version", .str version),
        ("oscal-version", .str "1.1.2")]),
     ("imports", .arr
       [.obj [("href", .str ("#" ++ catalogUuid)),
              ("include-controls", .arr
                [.obj [("with-ids", .arr ((sortStrings controlIds).map .str))]])]])])]

/-- Per-version catalog rebuild step of main: when a catalog snapshot of
the same version exists (its timestamps and its stored content with
timestamps already removed), a candidate is built and compared by
content_has_changed and the final catalog is built with the carried
timestamps and the comparison verdict; without a snapshot the catalog is
built with fresh timestamps and content_changed true. -/
def runCatalogStep (allControls : List Entry) (version now : String)
    (snapshot : Option (Timestamps × Json)) : Json :=
  let ts := snapshot.map (·.1)
  let changed :=
    match snapshot with
    | none => true
    | some snap =>
      content_has_changed (build_oscal_catalog allControls version ts false now).1
        (some snap.2)
  (build_oscal_catalog allControls version ts changed now).1

/-- Per-version profile rebuild step of main, analogous to the catalog
step. -/
def runProfileStep (impactLevel : String) (controlIds : List String)
    (catalogUuid version now : String)
    (snapshot : Option (Timestamps × Json)) : Json :=
  let ts := snapshot.map (·.1)
  let changed :=
    match snapshot with
    | none => true
    | some snap =>
      content_has_changed
        (build_oscal_profile impactLevel controlIds catalogUuid version ts false now)
        (some snap.2)
  build_oscal_profile impactLevel controlIds catalogUuid version ts changed now

/-- Metadata field of a built artifact, for stating timestamp
properties. -/
def metaField (j : Json) (top key : String) : Option Json :=
  match j with
  | .obj fs =>
    match lookupKey fs top with
    | some (.obj tfs) =>
      match lookupKey tfs "metadata" with
      | some (.obj mfs) => lookupKey mfs key
      | _ => none
    | _ => none
  | _ => none

/-! ### Aggregator (the accumulation loop of main) -/

/-- Aggregation of per-document parse results as the main loop performs
it: control lists are concatenated in document order and the impact and
following-information mappings are merged with dict.update, later
bindings overwriting earlier ones key by key. -/
def aggregate (results : List ParseOut) : ParseOut :=
  results.foldl
    (fun acc r =>
      ⟨acc.controls ++ r.controls,
       r.impacts.foldl (fun m kv => setKey m kv.1 kv.2) acc.impacts,
       r.following.foldl (fun m kv => setKey m kv.1 kv.2) acc.following⟩)
    ParseOut.empty

/-! ### Claim-support definitions -/

/-- Impact dict with all three levels false. -/
def allFalseImpact : Json :=
  .obj [("low", .bool false), ("moderate", .bool false), ("high", .bool false)]

/-- Impact dict with all three levels true. -/
def allTrueImpact : Json :=
  .obj [("low", .bool true), ("moderate", .bool true), ("high", .bool true)]

/-- Legacy KSI record with a direct statement and no impact object. -/
def c2Ind : List (String × Json) := [("id", .str "KSI-CNA-01"), ("statement", .str "S")]

/-- Legacy KSI document holding only the record c2Ind. -/
def c2Doc : Json :=
  .obj [("KSI", .obj [("CNA", .obj [("indicators", .arr [.obj c2Ind])])])]

/-- Indicator whose varies_by_level has the requested level present as a
dict without a statement and the moderate level as a nonempty string. -/
def c3Ind : List (String × Json) :=
  [("varies_by_level",
    .obj [("high", .obj [("note", .str "x")]), ("moderate", .str "something")])]

/-- Statement resolution as the claim words it: a truthy direct statement
wins; else, with a truthy dict varies_by_level, the first non-empty
statement found trying the requested level, then moderate, low, high in
that order, where a present level with an empty statement does not stop
the walk. -/
def claimResolvedStatement (fs : List (String × Json)) (level : String) : Json :=
  let statement := dictGetD fs "statement" (.str "")
  if pyTruthy statement then statement
  else
    match dictGetD fs "varies_by_level" .null with
    | .obj vs =>
      if vs.isEmpty then .str ""
      else fallbackScan vs [level, "moderate", "low", "high"]
    | _ => .str ""

/-- Legacy KSI document with two indicator records carrying the same raw
id inside one indicators list. -/
def c4Doc : Json :=
  .obj [("KSI", .obj [("CNA", .obj [("indicators",
    .arr [.obj [("id", .str "KSI-CNA-01"), ("statement", .str "S")],
          .obj [("id", .str "KSI-CNA-01"), ("statement", .str "T")]])])])]

/-- FormatDetector rule order as the claim words it, on documents whose
info block (when present) is a dict: rule 1, a string-valued version
field in info; rule 2, a list-valued releases field in info; rule 3, a
dialect-marker key (FRD or KSI) at the top level; rule 4, legacy. -/
def specDetect (fs : List (String × Json)) : String :=
  match dictGetD fs "info" (.obj []) with
  | .obj ifs =>
    if (match lookupKey ifs "version" with | some (.str _) => true | _ => false) then
      "consolidated"
    else if (match lookupKey ifs "releases" with | some (.arr _) => true | _ => false) then
      "legacy"
    else if hasKey fs "FRD" || hasKey fs "KSI" then "consolidated"
    else "legacy"
  | _ => "legacy"

/-- Legacy KSI document shape with one distinguished section whose
indicators list is given explicitly, used to state that inserting a
skipped record anywhere in an indicators list leaves the parse result
unchanged. -/
def ksiDocWith (secsA : List (String × Json)) (secKey : String)
    (sfs : List (String × Json)) (inds : List Json)
    (secsB rest : List (String × Json)) : Json :=
  .obj (("KSI",
    .obj (secsA ++ (secKey, .obj (("indicators", .arr inds) :: sfs)) :: secsB)) :: rest)

/-- A character list is lowered when ASCII lowercasing fixes every
character; outputs of the id normalizers satisfy this. -/
def Lowered (l : List Char) : Prop := ∀ c ∈ l, lowerChar c = c

/-! ### Claim C2 -/

/-- Claim C2, counterexample: for the legacy record with a direct
statement and no impact object, the legacy KSI parser assigns all three
impact levels false, while the direct-statement branch of
extract_impact_from_indicator assigns all three true — so impact
resolution is not the same function in both dialect parsers. -/
theorem c2_counterexample :
    (parse_ksi_indicators_legacy c2Doc).map (fun r => lookupKey r.impacts "cna-01")
      = .ok (some allFalseImpact)
    ∧ extract_impact_from_indicator c2Ind = .ok allTrueImpact := ⟨rfl, rfl⟩

/-- Claim C2, amended: the legacy parsers use only the explicit-impact
reading; a legacy record without a dict impact entry is assigned all
three levels false even when it has a direct statement, whereas the
direct-statement branch of extract_impact_from_indicator assigns all
three levels true to the same record. -/
theorem c2_legacy_impact_amended (ifs : List (String × Json))
    (himp : lookupKey ifs "impact" = none)
    (hvar : lookupKey ifs "varies_by_level" = none)
    (hstmt : ∃ s, lookupKey ifs "statement" = some (.str s) ∧ s ≠ "") :
    legacyFillImpact ifs = allFalseImpact
    ∧ extract_impact_from_indicator ifs = .ok allTrueImpact := by
  obtain ⟨s, hs, hne⟩ := hstmt
  constructor
  · simp [legacyFillImpact, dictGetD, himp, hasKey, lookupKey, allFalseImpact]
  · simp [extract_impact_from_indicator, dictGetD, hvar, impactNoVaries, hs,
      pyTruthy, hne, allTrueImpact, pure, Except.pure]

/-- Witness for c2_legacy_impact_amended at a concrete record. -/
theorem c2_legacy_impact_amended_witness :
    legacyFillImpact [("statement", .str "S")] = allFalseImpact
    ∧ extract_impact_from_indicator [("statement", .str "S")] = .ok allTrueImpact :=
  c2_legacy_impact_amended [("statement", .str "S")] rfl rfl ⟨"S", rfl, by decide⟩

/-! ### Claim C3 -/

/-- Claim C3, counterexample: with the requested level present as a dict
lacking a statement, get_indicator_statement returns the empty string
immediately, while the first non-empty statement in the claimed order
(requested level, then moderate, low, high) would be the moderate
entry. -/
theorem c3_counterexample :
    get_indicator_statement c3Ind "high" = .str ""
    ∧ claimResolvedStatement c3Ind "high" = .str "something" := ⟨rfl, rfl⟩

/-- Claim C3, amended: for a record without a truthy direct statement and
with a nonempty dict varies_by_level, a requested level present as a dict
or string returns its own (possibly empty) statement with no fallback;
only when the requested level is absent does the moderate, low, high walk
run, and there a present level with an empty statement does not stop the
walk. -/
theorem c3_statement_resolution_amended (fs vs : List (String × Json)) (level : String)
    (hstmt : ¬ pyTruthy (dictGetD fs "statement" (.str "")))
    (hvar : dictGetD fs "varies_by_level" .null = .obj vs)
    (hne : vs ≠ []) :
    (lookupKey vs level = none →
      get_indicator_statement fs level = fallbackScan vs ["moderate", "low", "high"])
    ∧ (∀ o, lookupKey vs level = some (.obj o) →
      get_indicator_statement fs level = dictGetD o "statement" (.str ""))
    ∧ (∀ s, lookupKey vs level = some (.str s) →
      get_indicator_statement fs level = .str s) := by
  have hemp : vs.isEmpty = false := by
    cases vs with
    | nil => exact absurd rfl hne
    | cons a l => rfl
  refine ⟨fun h => ?_, fun o h => ?_, fun s h => ?_⟩ <;>
    simp [get_indicator_statement, hstmt, hvar, hemp, h]

/-- Witness for c3_statement_resolution_amended: the absent-level case of
the record c3Ind, where the walk skips nothing and lands on the moderate
entry. -/
theorem c3_statement_resolution_amended_witness :
    get_indicator_statement c3Ind "low" = .str "something" := by
  have h := (c3_statement_resolution_amended c3Ind
    [("high", .obj [("note", .str "x")]), ("moderate", .str "something")]
    "low" (by decide) rfl (List.cons_ne_nil _ _)).1 rfl
  rw [h]; rfl

/-! ### Association-list lemmas for aggregation -/

/-- Lookup after a dict assignment: the assigned key reads back the new
value, other keys are unaffected. -/
theorem lookup_setKey (m : List (String × Json)) (k : String) (v : Json) (k' : String) :
    lookupKey (setKey m k v) k' = if k' = k then some v else lookupKey m k' := by
  induction m with
  | nil =>
    rcases eq_or_ne k' k with h | h
    · subst h; simp [setKey, lookupKey]
    · simp [setKey, lookupKey, h, h.symm]
  | cons p rest ih =>
    obtain ⟨pk, pv⟩ := p
    rcases eq_or_ne pk k with h1 | h1
    · subst h1
      rcases eq_or_ne k' pk with h2 | h2
      · subst h2; simp [setKey, lookupKey]
      · simp [setKey, lookupKey, h2, h2.symm]
    · rcases eq_or_ne k' pk with h2 | h2
      · subst h2
        simp [setKey, lookupKey, h1, h1.symm]
      · simp [setKey, lookupKey, h1, h2, h2.symm, ih]

/-- A key that is absent reads as none. -/
theorem lookup_eq_none_of_not_mem (b : List (String × Json)) (cid : String)
    (h : cid ∉ b.map Prod.fst) : lookupKey b cid = none := by
  induction b with
  | nil => rfl
  | cons p rest ih =>
    obtain ⟨pk, pv⟩ := p
    simp only [List.map_cons, List.mem_cons] at h
    push_neg at h
    simp [lookupKey, h.1.symm, ih h.2]

/-- Merging a mapping whose keys avoid a key leaves that key's binding
unchanged. -/
theorem lookup_updateAll_of_none (b : List (String × Json)) (cid : String)
    (h : lookupKey b cid = none) (acc : List (String × Json)) :
    lookupKey (b.foldl (fun m kv => setKey m kv.1 kv.2) acc) cid = lookupKey acc cid := by
  induction b generalizing acc with
  | nil => rfl
  | cons p rest ih =>
    obtain ⟨pk, pv⟩ := p
    simp only [lookupKey] at h
    by_cases h1 : pk = cid
    · simp [h1] at h
    · simp only [h1, if_false] at h
      simp only [List.foldl_cons]
      rw [ih h, lookup_setKey, if_neg (Ne.symm h1)]

/-- Merging a mapping with distinct keys makes each of its bindings win
over the accumulator. -/
theorem lookup_updateAll_of_some (b : List (String × Json)) (cid : String) (v : Json)
    (hv : lookupKey b cid = some v) (hnd : (b.map Prod.fst).Nodup)
    (acc : List (String × Json)) :
    lookupKey (b.foldl (fun m kv => setKey m kv.1 kv.2) acc) cid = some v := by
  induction b generalizing acc with
  | nil => simp [lookupKey] at hv
  | cons p rest ih =>
    obtain ⟨pk, pv⟩ := p
    simp only [List.map_cons, List.nodup_cons] at hnd
    simp only [lookupKey] at hv
    by_cases h1 : pk = cid
    · subst h1
      rw [if_pos rfl] at hv
      injection hv with hv'
      subst hv'
      have hnone : lookupKey rest pk = none :=
        lookup_eq_none_of_not_mem rest pk hnd.1
      simp only [List.foldl_cons]
      rw [lookup_updateAll_of_none rest pk hnone, lookup_setKey]
      simp
    · simp only [h1, if_false] at hv
      simp only [List.foldl_cons]
      exact ih hv hnd.2 _

/-- One aggregation step in closed form. -/
theorem aggregate_append_single (rs : List ParseOut) (r : ParseOut) :
    aggregate (rs ++ [r]) =
      ⟨(aggregate rs).controls ++ r.controls,
       r.impacts.foldl (fun m kv => setKey m kv.1 kv.2) (aggregate rs).impacts,
       r.following.foldl (fun m kv => setKey m kv.1 kv.2) (aggregate rs).following⟩ := by
  unfold aggregate
  rw [List.foldl_append]
  rfl

/-! ### Claim C4 -/

/-- Claim C4, counterexample: one legacy document whose indicators list
repeats a raw id yields an aggregated control list with two entries of
the same control id — control ids are not globally unique in the
aggregated set. -/
theorem c4_counterexample :
    (parse_ksi_indicators_legacy c4Doc).map
        (fun r => (aggregate [r]).controls.map (fun e => e.control.cid))
      = .ok ["cna-01", "cna-01"] := rfl

/-- Claim C4, amended: the aggregated control list is plain concatenation
and can keep several entries with the same control id; later records
overwrite earlier ones only in the id-keyed impact mapping (and likewise
the following-information mapping), where a binding present in the last
parse result wins and an absent key falls back to the earlier
aggregate. -/
theorem c4_aggregate_overwrite_amended (rs : List ParseOut) (r : ParseOut) (cid : String) :
    (aggregate (rs ++ [r])).controls = (aggregate rs).controls ++ r.controls
    ∧ (lookupKey r.impacts cid = none →
        lookupKey (aggregate (rs ++ [r])).impacts cid
          = lookupKey (aggregate rs).impacts cid)
    ∧ (∀ v, lookupKey r.impacts cid = some v → (r.impacts.map Prod.fst).Nodup →
        lookupKey (aggregate (rs ++ [r])).impacts cid = some v) := by
  refine ⟨?_, fun h => ?_, fun v hv hnd => ?_⟩
  · rw [aggregate_append_single]
  · rw [aggregate_append_single]
    exact lookup_updateAll_of_none r.impacts cid h _
  · rw [aggregate_append_single]
    exact lookup_updateAll_of_some r.impacts cid v hv hnd _

/-- Witness for c4_aggregate_overwrite_amended: a later parse result's
impact binding wins in the aggregate. -/
theorem c4_aggregate_overwrite_amended_witness :
    lookupKey (aggregate [⟨[], [("x", allFalseImpact)], []⟩,
      ⟨[], [("x", allTrueImpact)], []⟩]).impacts "x" = some allTrueImpact := by
  have h := (c4_aggregate_overwrite_amended [⟨[], [("x", allFalseImpact)], []⟩]
    ⟨[], [("x", allTrueImpact)], []⟩ "x").2.2 allTrueImpact rfl (by simp)
  exact h

/-! ### Lemmas about dash splitting and joining -/

/-- Splitting never yields an empty piece list. -/
theorem splitD_ne_nil (l : List Char) : splitD l ≠ [] := by
  induction l with
  | nil => simp [splitD]
  | cons c cs ih =>
    cases h : splitD cs with
    | nil => exact absurd h ih
    | cons p ps =>
      simp only [splitD, h]
      split <;> simp

/-- Pieces of a split contain no dash. -/
theorem splitD_no_dash (l : List Char) : ∀ p ∈ splitD l, '-' ∉ p := by
  induction l with
  | nil =>
    intro p hp
    simp [splitD] at hp
    simp [hp]
  | cons c cs ih =>
    intro p hp
    cases h : splitD cs with
    | nil => exact absurd h (splitD_ne_nil cs)
    | cons p0 ps =>
      simp only [splitD, h] at hp
      by_cases hc : c = '-'
      · rw [if_pos hc] at hp
        rcases List.mem_cons.mp hp with h1 | h1
        · simp [h1]
        · exact ih p (by rw [h]; exact h1)
      · rw [if_neg hc] at hp
        rcases List.mem_cons.mp hp with h1 | h1
        · subst h1
          intro hmem
          rcases List.mem_cons.mp hmem with h2 | h2
          · exact hc h2.symm
          · exact ih p0 (by rw [h]; exact List.mem_cons_self p0 ps) h2
        · exact ih p (by rw [h]; exact List.mem_cons_of_mem p0 h1)

/-- Joining a cons piece starting with a character pulls the character
out front. -/
theorem joinD_cons_cons (c : Char) (p : List Char) (ps : List (List Char)) :
    joinD ((c :: p) :: ps) = c :: joinD (p :: ps) := by
  cases ps <;> rfl

/-- Splitting and rejoining is the identity. -/
theorem joinD_splitD (l : List Char) : joinD (splitD l) = l := by
  induction l with
  | nil => rfl
  | cons c cs ih =>
    cases h : splitD cs with
    | nil => exact absurd h (splitD_ne_nil cs)
    | cons p ps =>
      rw [h] at ih
      simp only [splitD, h]
      by_cases hc : c = '-'
      · rw [if_pos hc, hc]
        show '-' :: joinD (p :: ps) = '-' :: cs
        rw [ih]
      · rw [if_neg hc, joinD_cons_cons, ih]

/-- A dash-free list splits into a single piece, itself. -/
theorem splitD_single (l : List Char) (h : '-' ∉ l) : splitD l = [l] := by
  induction l with
  | nil => rfl
  | cons c cs ih =>
    simp only [List.mem_cons] at h
    push_neg at h
    have h2 := ih h.2
    simp only [splitD, h2]
    rw [if_neg (fun hcc => h.1 hcc.symm)]

/-- Splitting at the first dash after a dash-free run. -/
theorem splitD_append_cons (xs ys : List Char) (h : '-' ∉ xs) :
    splitD (xs ++ '-' :: ys) = xs :: splitD ys := by
  induction xs with
  | nil =>
    cases h2 : splitD ys with
    | nil => exact absurd h2 (splitD_ne_nil ys)
    | cons p ps =>
      simp only [List.nil_append, splitD, h2]
      simp [h2]
  | cons x xs ih =>
    simp only [List.mem_cons] at h
    push_neg at h
    have hx := ih h.2
    simp only [List.cons_append, splitD, List.append_eq, hx]
    rw [if_neg (fun hcc : x = '-' => h.1 hcc.symm)]

/-- Joining dash-free pieces and splitting recovers them. -/
theorem splitD_joinD (ps : List (List Char)) (h1 : ps ≠ [])
    (h2 : ∀ p ∈ ps, '-' ∉ p) : splitD (joinD ps) = ps := by
  induction ps with
  | nil => exact absurd rfl h1
  | cons p rest ih =>
    cases rest with
    | nil =>
      show splitD (joinD [p]) = [p]
      exact splitD_single p (h2 p (List.mem_cons_self p []))
    | cons q rs =>
      show splitD (p ++ '-' :: joinD (q :: rs)) = p :: q :: rs
      rw [splitD_append_cons _ _ (h2 p (List.mem_cons_self p _))]
      rw [ih (List.cons_ne_nil q rs) (fun x hx => h2 x (List.mem_cons_of_mem p hx))]

/-- Characters of split pieces come from the input. -/
theorem mem_of_mem_splitD (l : List Char) (p : List Char) (c : Char)
    (hp : p ∈ splitD l) (hc : c ∈ p) : c ∈ l := by
  induction l generalizing p with
  | nil =>
    simp [splitD] at hp
    subst hp
    simp at hc
  | cons d cs ih =>
    cases h : splitD cs with
    | nil => exact absurd h (splitD_ne_nil cs)
    | cons p0 ps =>
      simp only [splitD, h] at hp
      by_cases hd : d = '-'
      · rw [if_pos hd] at hp
        rcases List.mem_cons.mp hp with h1 | h1
        · subst h1; simp at hc
        · exact List.mem_cons_of_mem d (ih p (by rw [h]; exact h1) hc)
      · rw [if_neg hd] at hp
        rcases List.mem_cons.mp hp with h1 | h1
        · subst h1
          rcases List.mem_cons.mp hc with h2 | h2
          · simp [h2]
          · exact List.mem_cons_of_mem d
              (ih p0 (by rw [h]; exact List.mem_cons_self p0 ps) h2)
        · exact List.mem_cons_of_mem d (ih p (by rw [h]; exact List.mem_cons_of_mem p0 h1) hc)

/-- Characters of a join are dashes or characters of the pieces. -/
theorem mem_joinD (ps : List (List Char)) (c : Char) (hc : c ∈ joinD ps) :
    c = '-' ∨ ∃ p ∈ ps, c ∈ p := by
  induction ps with
  | nil => simp [joinD] at hc
  | cons p rest ih =>
    cases rest with
    | nil =>
      right
      exact ⟨p, List.mem_cons_self p [], hc⟩
    | cons q rs =>
      rw [show joinD (p :: q :: rs) = p ++ '-' :: joinD (q :: rs) from rfl] at hc
      rcases List.mem_append.mp hc with h1 | h1
      · exact Or.inr ⟨p, List.mem_cons_self p _, h1⟩
      · rcases List.mem_cons.mp h1 with h2 | h2
        · exact Or.inl h2
        · rcases ih h2 with h3 | ⟨p', hp', hcp⟩
          · exact Or.inl h3
          · exact Or.inr ⟨p', List.mem_cons_of_mem p hp', hcp⟩

/-- A list containing a dash splits into at least two pieces. -/
theorem splitD_length_of_dash (l : List Char) (h : '-' ∈ l) :
    2 ≤ (splitD l).length := by
  induction l with
  | nil => simp at h
  | cons c cs ih =>
    cases h2 : splitD cs with
    | nil => exact absurd h2 (splitD_ne_nil cs)
    | cons p ps =>
      simp only [splitD, h2]
      by_cases hc : c = '-'
      · rw [if_pos hc]; simp
      · rw [if_neg hc]
        rcases List.mem_cons.mp h with h1 | h1
        · exact absurd h1.symm hc
        · have := ih h1
          rw [h2] at this
          simpa using this

/-! ### Claim C5 -/

/-- Claim C5, counterexample: a raw id without the FRR- prefix whose
remainder contains dashes goes through the split-and-join path, not the
claimed standard-plus-last-segment fallback. -/
theorem c5_counterexample :
    normalize_frr_control_id "XYZ-01-02" "ADS" = "xyz-01-02"
    ∧ normalize_frr_control_id "XYZ-01-02" "ADS" ≠ "ads-02" := ⟨rfl, by decide⟩

/-- Claim C5, amended: the standard-based fallback applies only to raw
ids without a dash (where the last dash-delimited segment is the whole
id); a raw id without the FRR- prefix but with dashes normalizes by
lowercasing and rejoining all its segments, and a prefixed id with a
three-segment suffix normalizes to all three lowercased segments. -/
theorem c5_frr_id_amended :
    (∀ (rawId standard : String),
        (['F', 'R', 'R', '-'].isPrefixOf rawId.toList) = false →
        '-' ∉ rawId.toList →
        normalize_frr_control_id rawId standard
          = String.mk (lowerStr standard.toList ++ '-' :: lowerStr rawId.toList))
    ∧ (∀ (a b c : List Char) (standard : String), '-' ∉ a → '-' ∉ b → '-' ∉ c →
        normalize_frr_control_id
            (String.mk ('F' :: 'R' :: 'R' :: '-' :: (a ++ ('-' :: (b ++ ('-' :: c))))))
            standard
          = String.mk (lowerStr a ++ ('-' :: (lowerStr b ++ ('-' :: lowerStr c))))) := by
  constructor
  · intro rawId standard h1 h2
    unfold normalize_frr_control_id nfciCore
    simp only [h1, Bool.false_eq_true, if_false, splitD_single rawId.toList h2,
      List.length_cons, List.length_nil, lastPiece, List.getLastD]
    rfl
  · intro a b c standard ha hb hc
    unfold normalize_frr_control_id nfciCore
    have htl : (String.mk ('F' :: 'R' :: 'R' :: '-' :: (a ++ ('-' :: (b ++ ('-' :: c)))))).toList
        = 'F' :: 'R' :: 'R' :: '-' :: (a ++ ('-' :: (b ++ ('-' :: c)))) := rfl
    rw [htl]
    have hpre : (['F', 'R', 'R', '-'].isPrefixOf
        ('F' :: 'R' :: 'R' :: '-' :: (a ++ ('-' :: (b ++ ('-' :: c)))))) = true := by
      simp [List.isPrefixOf]
    simp only [hpre, if_true, List.drop_succ_cons, List.drop_zero]
    rw [splitD_append_cons a _ ha, splitD_append_cons b _ hb, splitD_single c hc]
    simp [joinD]

/-- Witness for c5_frr_id_amended at concrete ids of both shapes. -/
theorem c5_frr_id_amended_witness :
    normalize_frr_control_id "XYZ" "ADS" = "ads-xyz"
    ∧ normalize_frr_control_id "FRR-SCN-TR-01" "SCN" = "scn-tr-01" := by
  constructor
  · have h := c5_frr_id_amended.1 "XYZ" "ADS" (by decide) (by decide)
    rw [h]; decide
  · have h := c5_frr_id_amended.2 "SCN".toList "TR".toList "01".toList "SCN"
      (by decide) (by decide) (by decide)
    have he : String.mk ('F' :: 'R' :: 'R' :: '-' ::
        ("SCN".toList ++ ('-' :: ("TR".toList ++ ('-' :: "01".toList)))))
        = "FRR-SCN-TR-01" := by decide
    rw [he] at h
    rw [h]; decide

/-! ### Claim C8 -/

/-- Claim C8, counterexample: a parsed document whose info value is a
list containing the string version passes the membership test of rule 1
and then raises TypeError at the subscript — the detector is not total
over parsed documents. -/
theorem c8_counterexample :
    detect_format_version (.obj [("info", .arr [.str "version"])])
      = .error .typeError := rfl

/-- Claim C8, amended: on every parsed document whose info value, when
present, is a dict, the detector raises no error and applies exactly the
claimed precedence: string-valued version in info gives consolidated,
else list-valued releases in info gives legacy, else a FRD or KSI
top-level key gives consolidated, else legacy; documents with a non-dict
info value can raise TypeError instead. -/
theorem rule3_bool (a b c : Bool) :
    (if ((a || b) && (a || b || c)) = true then
        (Except.ok "consolidated" : Except PyErr String)
     else .ok "legacy")
      = .ok (if (a || b) = true then "consolidated" else "legacy") := by
  cases a <;> cases b <;> cases c <;> simp

theorem c8_detector_amended (fs : List (String × Json))
    (hinfo : ∀ j, lookupKey fs "info" = some j → ∃ ifs, j = .obj ifs) :
    detect_format_version (.obj fs) = .ok (specDetect fs) := by
  have hobj : ∃ ifs, dictGetD fs "info" (.obj []) = .obj ifs := by
    unfold dictGetD
    cases h : lookupKey fs "info" with
    | none => exact ⟨[], rfl⟩
    | some j =>
      obtain ⟨ifs, hj⟩ := hinfo j h
      exact ⟨ifs, by simp [hj]⟩
  obtain ⟨ifs, hifs⟩ := hobj
  simp only [detect_format_version, specDetect, hifs, pyContainsStr, pyIndexStr, hasKey]
  cases hv : lookupKey ifs "version" with
  | none =>
    simp only [hv, Option.isSome_none, Bool.false_eq_true, if_false]
    cases hr : lookupKey ifs "releases" with
    | none =>
      simp only [hr, Option.isSome_none, Bool.false_eq_true, if_false]
      exact rule3_bool _ _ _
    | some r =>
      cases r <;> simp only [hr, Option.isSome_some, if_true] <;>
        first
          | rfl
          | exact rule3_bool _ _ _
  | some v =>
    cases v <;> simp only [hv, Option.isSome_some, if_true] <;>
      first
        | rfl
        | (cases hr : lookupKey ifs "releases" with
           | none =>
             simp only [hr, Option.isSome_none, Bool.false_eq_true, if_false]
             exact rule3_bool _ _ _
           | some r =>
             cases r <;> simp only [hr, Option.isSome_some, if_true] <;>
               first
                 | rfl
                 | exact rule3_bool _ _ _)

/-- Witness for c8_detector_amended: a document with only a KSI top-level
key is classified consolidated by rule 3 without error. -/
theorem c8_detector_amended_witness :
    detect_format_version (.obj [("KSI", .obj [])]) = .ok "consolidated" := by
  have h := c8_detector_amended [("KSI", .obj [])]
    (fun j hj => by simp [lookupKey] at hj)
  rw [h]; rfl

/-! ### Claim C10 -/

/-- Bind of a successful Except computation. -/
theorem except_bind_ok {α β : Type} (a : α) (f : α → Except PyErr β) :
    (Except.ok a >>= f) = f a := rfl

/-- Claim C10: the legacy FRR parser returns empty results for every
document (with a dict top level) whose filename lacks the FRMR
three-uppercase-letter pattern, whatever the content; and likewise, for a
matching filename, whenever the dict FRR section has no truthy dict entry
under the extracted standard (the info block, present or absent, being a
dict as the legacy dialect shapes it). -/
theorem c10_legacy_frr_empty_results :
    (∀ (fs : List (String × Json)) (filename : String),
        findFrmrStandard filename.toList = none →
        parse_frr_requirements_legacy (.obj fs) filename = .ok ParseOut.empty)
    ∧ (∀ (fs ffs : List (String × Json)) (filename : String) (stdChars : List Char),
        findFrmrStandard filename.toList = some stdChars →
        lookupKey fs "FRR" = some (.obj ffs) →
        (lookupKey fs "info" = none ∨ ∃ ifs, lookupKey fs "info" = some (.obj ifs)) →
        (∀ sfs, lookupKey ffs (String.mk stdChars) = some (.obj sfs) → sfs = []) →
        parse_frr_requirements_legacy (.obj fs) filename = .ok ParseOut.empty) := by
  constructor
  · intro fs filename h
    simp only [String.toList] at h
    simp only [parse_frr_requirements_legacy, pyContainsStr, except_bind_ok]
    by_cases hfrr : hasKey fs "FRR"
    · simp [hfrr, h, pure, Except.pure]
    · simp [hfrr, pure, Except.pure]
  · intro fs ffs filename stdChars hstd hfrr hinfo hmiss
    simp only [String.toList] at hstd
    have hhk : hasKey fs "FRR" = true := by simp [hasKey, hfrr]
    simp only [parse_frr_requirements_legacy, pyContainsStr, except_bind_ok, hhk, hstd,
      Bool.not_true, Bool.false_eq_true, if_false]
    have hinfoObj : ∃ ifs, (lookupKey fs "info").getD (Json.obj []) = .obj ifs := by
      rcases hinfo with h1 | ⟨ifs, h1⟩
      · exact ⟨[], by simp [h1]⟩
      · exact ⟨ifs, by simp [h1]⟩
    obtain ⟨ifs, hifs⟩ := hinfoObj
    simp only [pyGet, dictGetD, hifs, except_bind_ok, pyIndexStr, hfrr]
    cases hl : lookupKey ffs (String.mk stdChars) with
    | none => simp [hstd, hl, except_bind_ok, pure, Except.pure]
    | some v =>
      cases v with
      | obj sfs =>
        have := hmiss sfs (by rw [hl])
        subst this
        simp [hstd, hl, except_bind_ok, pure, Except.pure, pyTruthy]
      | null => simp [hstd, hl, except_bind_ok, pure, Except.pure]
      | bool b => simp [hstd, hl, except_bind_ok, pure, Except.pure]
      | num n => simp [hstd, hl, except_bind_ok, pure, Except.pure]
      | str t => simp [hstd, hl, except_bind_ok, pure, Except.pure]
      | arr xs => simp [hstd, hl, except_bind_ok, pure, Except.pure]

/-- Witness for c10_legacy_frr_empty_results: the consolidated filename
(no uppercase standard segment) yields empty results even with FRR
content present, and a matching filename with an FRR section lacking the
ABC entry yields empty results. -/
theorem c10_legacy_frr_empty_results_witness :
    parse_frr_requirements_legacy
        (.obj [("FRR", .obj [("ABC", .obj [("s", .obj [("requirements",
          .arr [.obj [("id", .str "FRR-ABC-01"), ("statement", .str "x")]])])])])])
        "FRMR.documentation.json" = .ok ParseOut.empty
    ∧ parse_frr_requirements_legacy (.obj [("FRR", .obj []), ("info", .obj [])])
        "FRMR.ABC.x.json" = .ok ParseOut.empty := by
  constructor
  · exact c10_legacy_frr_empty_results.1 _ "FRMR.documentation.json" (by decide)
  · exact c10_legacy_frr_empty_results.2 _ [] "FRMR.ABC.x.json" ['A', 'B', 'C']
      (by decide) rfl (Or.inr ⟨[], rfl⟩)
      (fun sfs h => by simp [lookupKey] at h)

/-! ### Claim C9 -/

/-- Appending lists under the effectful fold. -/
theorem foldE_append {σ α : Type} (f : σ → α → Except PyErr σ) (st : σ)
    (xs ys : List α) :
    foldE f st (xs ++ ys) =
      match foldE f st xs with
      | .ok st' => foldE f st' ys
      | .error e => .error e := by
  induction xs generalizing st with
  | nil => rfl
  | cons x xs ih =>
    simp only [List.cons_append, foldE]
    cases f st x with
    | ok st' => exact ih st'
    | error e => rfl

/-- Bridge between the boolean prefix test and the prefix relation. -/
theorem not_prefix_of_isPrefixOf_false (l1 l2 : List Char)
    (h : l1.isPrefixOf l2 = false) : ¬ (l1 <+: l2) := by
  intro hp
  have h2 := List.isPrefixOf_iff_prefix.mpr hp
  rw [h] at h2
  cases h2

/-- Skip behaviour of the legacy KSI indicator step: a record whose id is
missing (hence the empty-string default) or a string without the KSI-
prefix leaves the parser state untouched and raises nothing. -/
theorem ksiIndicatorStep_skip (gid : String) (gt : Json) (st : ParseOut)
    (rfs : List (String × Json))
    (hid : lookupKey rfs "id" = none ∨
      ∃ s, lookupKey rfs "id" = some (.str s) ∧
        (List.isPrefixOf "KSI-".toList s.toList) = false) :
    ksiIndicatorStep gid gt st (.obj rfs) = .ok st := by
  rcases hid with h | ⟨s, h, hpre⟩
  · simp [ksiIndicatorStep, dictGetD, h, pyTruthy, pure, Except.pure]
  · by_cases hs : s = ""
    · subst hs
      simp [ksiIndicatorStep, dictGetD, h, pyTruthy, pure, Except.pure]
    · simp only [ksiIndicatorStep, dictGetD, h, Option.getD_some]
      simp [pyTruthy, hs, pure, Except.pure]
      intro hp
      exact absurd hp (not_prefix_of_isPrefixOf_false _ _ hpre)

/-- Dropping a skipped record from a section's indicators list does not
change the section step's result. -/
theorem ksiSectionStep_congr (st : ParseOut) (secKey : String)
    (sfs : List (String × Json)) (pre post : List Json)
    (rfs : List (String × Json))
    (hid : lookupKey rfs "id" = none ∨
      ∃ s, lookupKey rfs "id" = some (.str s) ∧
        (List.isPrefixOf "KSI-".toList s.toList) = false) :
    ksiSectionStep st (secKey, .obj (("indicators", .arr (pre ++ .obj rfs :: post)) :: sfs))
      = ksiSectionStep st (secKey, .obj (("indicators", .arr (pre ++ post)) :: sfs)) := by
  have hgt : ∀ x y : Json, legacyGroupTitle (("indicators", x) :: sfs) secKey
      = legacyGroupTitle (("indicators", y) :: sfs) secKey := by
    intro x y
    simp [legacyGroupTitle, dictGetD, lookupKey]
  rw [show (ksiSectionStep st
        (secKey, .obj (("indicators", .arr (pre ++ .obj rfs :: post)) :: sfs)))
      = (if ¬ hasKey (("indicators", Json.arr (pre ++ .obj rfs :: post)) :: sfs)
             "indicators" then pure st
         else do
           let gtitle := legacyGroupTitle
             (("indicators", Json.arr (pre ++ .obj rfs :: post)) :: sfs) secKey
           let inds ← pyIterate (dictGetD
             (("indicators", Json.arr (pre ++ .obj rfs :: post)) :: sfs)
             "indicators" (.arr []))
           foldE (ksiIndicatorStep secKey gtitle) st inds) from rfl]
  rw [show (ksiSectionStep st (secKey, .obj (("indicators", .arr (pre ++ post)) :: sfs)))
      = (if ¬ hasKey (("indicators", Json.arr (pre ++ post)) :: sfs) "indicators" then
           pure st
         else do
           let gtitle := legacyGroupTitle
             (("indicators", Json.arr (pre ++ post)) :: sfs) secKey
           let inds ← pyIterate (dictGetD
             (("indicators", Json.arr (pre ++ post)) :: sfs) "indicators" (.arr []))
           foldE (ksiIndicatorStep secKey gtitle) st inds) from rfl]
  rw [hgt (.arr (pre ++ .obj rfs :: post)) (.arr (pre ++ post))]
  show foldE (ksiIndicatorStep secKey
      (legacyGroupTitle (("indicators", Json.arr (pre ++ post)) :: sfs) secKey))
      st (pre ++ Json.obj rfs :: post)
    = foldE (ksiIndicatorStep secKey
      (legacyGroupTitle (("indicators", Json.arr (pre ++ post)) :: sfs) secKey))
      st (pre ++ post)
  rw [foldE_append, foldE_append]
  cases h : foldE (ksiIndicatorStep secKey
      (legacyGroupTitle (("indicators", Json.arr (pre ++ post)) :: sfs) secKey))
      st pre with
  | error e => rfl
  | ok st2 =>
    simp only [foldE]
    rw [ksiIndicatorStep_skip secKey _ st2 rfs hid]

/-- Claim C9: the legacy KSI parser silently drops an indicator record
whose id field is missing or is a string not starting with KSI-, wherever
the record sits in a section's indicators list: the whole parse result
(controls, impact map, following-information map) is the same as for the
document without the record, so the record contributes no control, no
impact entry and no following-information entry, whatever its statement
or impact content. -/
theorem c9_legacy_ksi_drops_bad_ids (secsA secsB rest : List (String × Json))
    (secKey : String) (sfs : List (String × Json)) (pre post : List Json)
    (rfs : List (String × Json))
    (hid : lookupKey rfs "id" = none ∨
      ∃ s, lookupKey rfs "id" = some (.str s) ∧
        (List.isPrefixOf "KSI-".toList s.toList) = false) :
    parse_ksi_indicators_legacy
        (ksiDocWith secsA secKey sfs (pre ++ .obj rfs :: post) secsB rest)
      = parse_ksi_indicators_legacy
        (ksiDocWith secsA secKey sfs (pre ++ post) secsB rest) := by
  show foldE ksiSectionStep ParseOut.empty
      (secsA ++ (secKey,
        Json.obj (("indicators", Json.arr (pre ++ Json.obj rfs :: post)) :: sfs)) :: secsB)
    = foldE ksiSectionStep ParseOut.empty
      (secsA ++ (secKey,
        Json.obj (("indicators", Json.arr (pre ++ post)) :: sfs)) :: secsB)
  rw [foldE_append, foldE_append]
  cases h : foldE ksiSectionStep ParseOut.empty secsA with
  | error e => rfl
  | ok st2 =>
    simp only [foldE]
    rw [ksiSectionStep_congr st2 secKey sfs pre post rfs hid]

/-- Witness for c9_legacy_ksi_drops_bad_ids: a record with a foreign id
prefix, a nonempty statement and explicit impact data is invisible to the
legacy KSI parser. -/
theorem c9_legacy_ksi_drops_bad_ids_witness :
    parse_ksi_indicators_legacy
        (ksiDocWith [] "CNA" []
          [.obj [("id", .str "XSI-1"), ("statement", .str "S"),
                 ("impact", .obj [("low", .bool true)])]] [] [])
      = parse_ksi_indicators_legacy (ksiDocWith [] "CNA" [] [] [] []) :=
  c9_legacy_ksi_drops_bad_ids [] [] [] "CNA" [] [] []
    [("id", .str "XSI-1"), ("statement", .str "S"),
     ("impact", .obj [("low", .bool true)])]
    (Or.inr ⟨"XSI-1", rfl, by decide⟩)

/-! ### Claim C1 -/

/-- A canonical comparison of a built catalog against a snapshot can only
succeed when the snapshot is truthy (a nonempty dict). -/
theorem catalog_truthy_of_beq (allControls : List Entry) (version now : String)
    (ts : Option Timestamps) (b : Bool) (e : Json)
    (h : jsonBeq (canonJson (stripTimestamps
        (build_oscal_catalog allControls version ts b now).1)) (canonJson e) = true) :
    pyTruthy e = true := by
  cases e with
  | obj fs =>
    cases fs with
    | nil => exact absurd h (fun hh => Bool.false_ne_true hh)
    | cons f fs2 => simp [pyTruthy]
  | null => exact absurd h (fun hh => Bool.false_ne_true hh)
  | bool b2 => exact absurd h (fun hh => Bool.false_ne_true hh)
  | num n => exact absurd h (fun hh => Bool.false_ne_true hh)
  | str s => exact absurd h (fun hh => Bool.false_ne_true hh)
  | arr xs => exact absurd h (fun hh => Bool.false_ne_true hh)

/-- A canonical comparison of a built profile against a snapshot can only
succeed when the snapshot is truthy. -/
theorem profile_truthy_of_beq (impactLevel : String) (controlIds : List String)
    (catalogUuid version now : String) (ts : Option Timestamps) (b : Bool) (e : Json)
    (h : jsonBeq (canonJson (stripTimestamps
        (build_oscal_profile impactLevel controlIds catalogUuid version ts b now)))
      (canonJson e) = true) :
    pyTruthy e = true := by
  cases e with
  | obj fs =>
    cases fs with
    | nil => exact absurd h (fun hh => Bool.false_ne_true hh)
    | cons f fs2 => simp [pyTruthy]
  | null => exact absurd h (fun hh => Bool.false_ne_true hh)
  | bool b2 => exact absurd h (fun hh => Bool.false_ne_true hh)
  | num n => exact absurd h (fun hh => Bool.false_ne_true hh)
  | str s => exact absurd h (fun hh => Bool.false_ne_true hh)
  | arr xs => exact absurd h (fun hh => Bool.false_ne_true hh)

/-- Claim C1: in the rebuild step of main, with no snapshot of the
version, both timestamps are set to the current instant; with a snapshot,
the published value is carried over verbatim unconditionally, and the
last-modified value is carried over exactly when the candidate with
timestamps removed and the stored snapshot agree under serialization with
sorted keys (structural equality of canonical forms), and is set to the
current instant when they differ; the same holds for the profile builder. -/
theorem c1_timestamp_carryover (allControls : List Entry) (controlIds : List String)
    (impactLevel catalogUuid version now : String) (ts : Timestamps) (snap : Json) :
    (metaField (runCatalogStep allControls version now none) "catalog" "published"
        = some (.str now)
     ∧ metaField (runCatalogStep allControls version now none) "catalog" "last-modified"
        = some (.str now))
    ∧ metaField (runCatalogStep allControls version now (some (ts, snap))) "catalog"
        "published" = some ts.published
    ∧ (jsonBeq (canonJson (stripTimestamps
          (build_oscal_catalog allControls version (some ts) false now).1))
        (canonJson snap) = true →
        metaField (runCatalogStep allControls version now (some (ts, snap))) "catalog"
          "last-modified" = some ts.lastModified)
    ∧ (jsonBeq (canonJson (stripTimestamps
          (build_oscal_catalog allControls version (some ts) false now).1))
        (canonJson snap) = false →
        metaField (runCatalogStep allControls version now (some (ts, snap))) "catalog"
          "last-modified" = some (.str now))
    ∧ (metaField (runProfileStep impactLevel controlIds catalogUuid version now none)
          "profile" "published" = some (.str now)
       ∧ metaField (runProfileStep impactLevel controlIds catalogUuid version now none)
          "profile" "last-modified" = some (.str now))
    ∧ metaField (runProfileStep impactLevel controlIds catalogUuid version now
        (some (ts, snap))) "profile" "published" = some ts.published
    ∧ (jsonBeq (canonJson (stripTimestamps
          (build_oscal_profile impactLevel controlIds catalogUuid version (some ts)
            false now)))
        (canonJson snap) = true →
        metaField (runProfileStep impactLevel controlIds catalogUuid version now
          (some (ts, snap))) "profile" "last-modified" = some ts.lastModified)
    ∧ (jsonBeq (canonJson (stripTimestamps
          (build_oscal_profile impactLevel controlIds catalogUuid version (some ts)
            false now)))
        (canonJson snap) = false →
        metaField (runProfileStep impactLevel controlIds catalogUuid version now
          (some (ts, snap))) "profile" "last-modified" = some (.str now)) := by
  refine ⟨⟨rfl, rfl⟩, rfl, fun hbeq => ?_, fun hbeq => ?_, ⟨rfl, rfl⟩, rfl,
    fun hbeq => ?_, fun hbeq => ?_⟩
  · have htru : pyTruthy snap = true :=
      catalog_truthy_of_beq allControls version now (some ts) false snap hbeq
    have hC : content_has_changed
        (build_oscal_catalog allControls version (some ts) false now).1 (some snap)
        = false := by
      simp [content_has_changed, htru, hbeq]
    show metaField (build_oscal_catalog allControls version (some ts)
        (content_has_changed
          (build_oscal_catalog allControls version (some ts) false now).1 (some snap))
        now).1 "catalog" "last-modified" = some ts.lastModified
    rw [hC]
    rfl
  · have hC : content_has_changed
        (build_oscal_catalog allControls version (some ts) false now).1 (some snap)
        = true := by
      by_cases ht : pyTruthy snap
      · simp [content_has_changed, ht, hbeq]
      · simp [content_has_changed, ht]
    show metaField (build_oscal_catalog allControls version (some ts)
        (content_has_changed
          (build_oscal_catalog allControls version (some ts) false now).1 (some snap))
        now).1 "catalog" "last-modified" = some (.str now)
    rw [hC]
    rfl
  · have htru : pyTruthy snap = true :=
      profile_truthy_of_beq impactLevel controlIds catalogUuid version now (some ts)
        false snap hbeq
    have hC : content_has_changed
        (build_oscal_profile impactLevel controlIds catalogUuid version (some ts)
          false now) (some snap) = false := by
      simp [content_has_changed, htru, hbeq]
    show metaField (build_oscal_profile impactLevel controlIds catalogUuid version
        (some ts)
        (content_has_changed
          (build_oscal_profile impactLevel controlIds catalogUuid version (some ts)
            false now) (some snap))
        now) "profile" "last-modified" = some ts.lastModified
    rw [hC]
    rfl
  · have hC : content_has_changed
        (build_oscal_profile impactLevel controlIds catalogUuid version (some ts)
          false now) (some snap) = true := by
      by_cases ht : pyTruthy snap
      · simp [content_has_changed, ht, hbeq]
      · simp [content_has_changed, ht]
    show metaField (build_oscal_profile impactLevel controlIds catalogUuid version
        (some ts)
        (content_has_changed
          (build_oscal_profile impactLevel controlIds catalogUuid version (some ts)
            false now) (some snap))
        now) "profile" "last-modified" = some (.str now)
    rw [hC]
    rfl

/-- Witness for c1_timestamp_carryover: with no snapshot both timestamps
are the supplied instant, and with a snapshot of identical canonical
content both timestamps are carried over. -/
theorem c1_timestamp_carryover_witness :
    metaField (runCatalogStep [] "1.0" "NOW" none) "catalog" "published"
      = some (.str "NOW")
    ∧ metaField (runCatalogStep [] "1.0" "NOW"
        (some (⟨.str "P", .str "L"⟩,
          stripTimestamps (build_oscal_catalog [] "1.0" none true "X").1)))
        "catalog" "last-modified" = some (.str "L") := by
  constructor
  · exact (c1_timestamp_carryover [] [] "low" "U" "1.0" "NOW" ⟨.str "P", .str "L"⟩
      Json.null).1.1
  · exact (c1_timestamp_carryover [] [] "low" "U" "1.0" "NOW" ⟨.str "P", .str "L"⟩
      (stripTimestamps (build_oscal_catalog [] "1.0" none true "X").1)).2.2.1
      (by rfl)

/-! ### Character lemmas for the id normalizers -/

/-- Code of a character built from a valid code point. -/
theorem toNat_ofNat_valid (n : Nat) (h : n.isValidChar) : (Char.ofNat n).toNat = n := by
  simp only [Char.ofNat, h, dif_pos, Char.ofNatAux, Char.toNat, UInt32.toNat]
  exact BitVec.toNat_ofNatLt _ _

/-- Lowercasing fixes characters outside the uppercase range. -/
theorem lowerChar_eq_self {c : Char} (h : ¬ (65 ≤ c.toNat ∧ c.toNat ≤ 90)) :
    lowerChar c = c := by
  unfold lowerChar
  rw [if_neg h]

/-- Code of the lowercased character of an uppercase letter. -/
theorem lowerChar_toNat_of_upper {c : Char} (h : 65 ≤ c.toNat ∧ c.toNat ≤ 90) :
    (lowerChar c).toNat = c.toNat + 32 := by
  unfold lowerChar
  rw [if_pos h, toNat_ofNat_valid _ (Or.inl (by omega))]

/-- A lowercased character is never an uppercase letter. -/
theorem lowerChar_not_upper (c : Char) :
    ¬ (65 ≤ (lowerChar c).toNat ∧ (lowerChar c).toNat ≤ 90) := by
  by_cases h : 65 ≤ c.toNat ∧ c.toNat ≤ 90
  · rw [lowerChar_toNat_of_upper h]; omega
  · rw [lowerChar_eq_self h]; exact h

/-- Lowercasing one character is idempotent. -/
theorem lowerChar_idem (c : Char) : lowerChar (lowerChar c) = lowerChar c :=
  lowerChar_eq_self (lowerChar_not_upper c)

/-- Only the dash lowercases to a dash. -/
theorem lowerChar_eq_dash {c : Char} (h : lowerChar c = '-') : c = '-' := by
  by_cases hu : 65 ≤ c.toNat ∧ c.toNat ≤ 90
  · exfalso
    have h2 := lowerChar_toNat_of_upper hu
    rw [h] at h2
    have h45 : ('-' : Char).toNat = 45 := by decide
    omega
  · rwa [lowerChar_eq_self hu] at h

/-- Strings of lowered characters are fixed by lowercasing. -/
theorem lowerStr_of_lowered {l : List Char} (h : Lowered l) : lowerStr l = l := by
  induction l with
  | nil => rfl
  | cons c cs ih =>
    have hc := h c (List.mem_cons_self c cs)
    have hcs : Lowered cs := fun d hd => h d (List.mem_cons_of_mem c hd)
    simp only [lowerStr, List.map_cons, hc]
    exact congrArg (c :: ·) (ih hcs)

/-- Lowercasing produces a lowered string. -/
theorem lowered_lowerStr (l : List Char) : Lowered (lowerStr l) := by
  intro c hc
  simp only [lowerStr, List.mem_map] at hc
  obtain ⟨d, _, hd⟩ := hc
  rw [← hd]
  exact lowerChar_idem d

/-- Lowercasing preserves dash freedom. -/
theorem no_dash_lowerStr {l : List Char} (h : '-' ∉ l) : '-' ∉ lowerStr l := by
  intro hmem
  simp only [lowerStr, List.mem_map] at hmem
  obtain ⟨d, hd, hld⟩ := hmem
  exact h (lowerChar_eq_dash hld ▸ hd)

/-- Pieces of a lowered string are lowered. -/
theorem lowered_pieces {l : List Char} (h : Lowered l) :
    ∀ p ∈ splitD l, Lowered p :=
  fun p hp c hc => h c (mem_of_mem_splitD l p c hp hc)

/-- Joins of lowered pieces are lowered. -/
theorem lowered_joinD {ps : List (List Char)} (h : ∀ p ∈ ps, Lowered p) :
    Lowered (joinD ps) := by
  intro c hc
  rcases mem_joinD ps c hc with h1 | ⟨p, hp, hcp⟩
  · subst h1; decide
  · exact h p hp c hcp

/-- Lowercasing each of a family of lowered pieces changes nothing. -/
theorem map_lowerStr_self {ps : List (List Char)} (h : ∀ p ∈ ps, Lowered p) :
    ps.map lowerStr = ps := by
  induction ps with
  | nil => rfl
  | cons p rest ih =>
    simp only [List.map_cons]
    rw [lowerStr_of_lowered (h p (List.mem_cons_self p rest)),
      ih (fun q hq => h q (List.mem_cons_of_mem p hq))]

/-- Underscore replacement leaves no underscore behind. -/
theorem no_underscore_replaceU (l : List Char) : '_' ∉ replaceU l := by
  intro hmem
  simp only [replaceU, List.mem_map] at hmem
  obtain ⟨d, _, hd⟩ := hmem
  by_cases h : d = '_'
  · rw [if_pos h] at hd; cases hd
  · rw [if_neg h] at hd; exact h hd

/-- Underscore replacement fixes strings without underscores. -/
theorem replaceU_of_no_underscore {l : List Char} (h : '_' ∉ l) : replaceU l = l := by
  induction l with
  | nil => rfl
  | cons c cs ih =>
    simp only [List.mem_cons] at h
    push_neg at h
    simp only [replaceU, List.map_cons]
    rw [if_neg (fun hc : c = '_' => h.1 hc.symm)]
    exact congrArg (c :: ·) (ih h.2)

/-- Underscore replacement preserves loweredness. -/
theorem lowered_replaceU {l : List Char} (h : Lowered l) : Lowered (replaceU l) := by
  intro c hc
  simp only [replaceU, List.mem_map] at hc
  obtain ⟨d, hd, hdc⟩ := hc
  by_cases h2 : d = '_'
  · rw [if_pos h2] at hdc; rw [← hdc]; decide
  · rw [if_neg h2] at hdc; rw [← hdc]; exact h d hd

/-- A lowered string never starts with the uppercase KSI- prefix. -/
theorem ksi_pref_false_of_lowered {l : List Char} (h : Lowered l) :
    List.isPrefixOf "KSI-".toList l = false := by
  by_contra hb
  have hb2 : List.isPrefixOf "KSI-".toList l = true := by
    cases h3 : List.isPrefixOf "KSI-".toList l
    · exact absurd h3 hb
    · rfl
  have hpre := List.isPrefixOf_iff_prefix.mp hb2
  obtain ⟨t, ht⟩ := hpre
  have hK : 'K' ∈ l := by rw [← ht]; simp [String.toList]
  have := h 'K' hK
  have : lowerChar 'K' = 'K' := this
  rw [show lowerChar 'K' = 'k' from by decide] at this
  cases this

/-- A lowered string never starts with the uppercase FRR- prefix. -/
theorem frr_pref_false_of_lowered {l : List Char} (h : Lowered l) :
    List.isPrefixOf ['F', 'R', 'R', '-'] l = false := by
  by_contra hb
  have hb2 : List.isPrefixOf ['F', 'R', 'R', '-'] l = true := by
    cases h3 : List.isPrefixOf ['F', 'R', 'R', '-'] l
    · exact absurd h3 hb
    · rfl
  have hpre := List.isPrefixOf_iff_prefix.mp hb2
  obtain ⟨t, ht⟩ := hpre
  have hF : 'F' ∈ l := by rw [← ht]; simp
  have h2 := h 'F' hF
  rw [show lowerChar 'F' = 'f' from by decide] at h2
  cases h2

/-- A join of at least two pieces contains a dash. -/
theorem dash_mem_joinD {ps : List (List Char)} (h : 2 ≤ ps.length) :
    '-' ∈ joinD ps := by
  cases ps with
  | nil => simp at h
  | cons p rest =>
    cases rest with
    | nil => simp at h
    | cons q rs =>
      show '-' ∈ p ++ '-' :: joinD (q :: rs)
      simp

/-! ### Claim C6 -/

/-- Unfolding equation of the KSI id normalizer core. -/
theorem nciCore_eq (l p : List Char) :
    nciCore l p =
      (if 2 ≤ (splitD (if List.isPrefixOf p l then l.drop p.length else l)).length
       then joinD ((splitD (if List.isPrefixOf p l then l.drop p.length else l)).map lowerStr)
       else replaceU (lowerStr (if List.isPrefixOf p l then l.drop p.length else l))) := rfl

/-- Unfolding equation of the FRR id normalizer core. -/
theorem nfciCore_eq (l std : List Char) :
    nfciCore l std =
      (if 2 ≤ (splitD (if List.isPrefixOf ['F', 'R', 'R', '-'] l then l.drop 4 else l)).length
       then joinD ((splitD (if List.isPrefixOf ['F', 'R', 'R', '-'] l then l.drop 4 else l)).map lowerStr)
       else lowerStr std ++ '-' :: lowerStr (lastPiece (splitD l))) := rfl

/-- The KSI normalizer core always outputs a lowered string. -/
theorem lowered_nciCore (l p : List Char) : Lowered (nciCore l p) := by
  rw [nciCore_eq]
  generalize (if List.isPrefixOf p l then l.drop p.length else l) = r
  by_cases h : 2 ≤ (splitD r).length
  · rw [if_pos h]
    apply lowered_joinD
    intro q hq
    simp only [List.mem_map] at hq
    obtain ⟨d, _, rfl⟩ := hq
    exact lowered_lowerStr d
  · rw [if_neg h]
    exact lowered_replaceU (lowered_lowerStr r)

/-- The FRR normalizer core always outputs a lowered string. -/
theorem lowered_nfciCore (l std : List Char) : Lowered (nfciCore l std) := by
  rw [nfciCore_eq]
  by_cases h : 2 ≤ (splitD (if List.isPrefixOf ['F', 'R', 'R', '-'] l then l.drop 4 else l)).length
  · rw [if_pos h]
    apply lowered_joinD
    intro q hq
    simp only [List.mem_map] at hq
    obtain ⟨d, _, rfl⟩ := hq
    exact lowered_lowerStr d
  · rw [if_neg h]
    intro c hc
    rcases List.mem_append.mp hc with h1 | h1
    · exact lowered_lowerStr _ c h1
    · rcases List.mem_cons.mp h1 with h2 | h2
      · subst h2; decide
      · exact lowered_lowerStr _ c h2

/-- The FRR normalizer core always outputs a string containing a dash. -/
theorem dash_mem_nfciCore (l std : List Char) : '-' ∈ nfciCore l std := by
  rw [nfciCore_eq]
  by_cases h : 2 ≤ (splitD (if List.isPrefixOf ['F', 'R', 'R', '-'] l then l.drop 4 else l)).length
  · rw [if_pos h]
    exact dash_mem_joinD (by simpa using h)
  · rw [if_neg h]
    simp

/-- Idempotence of the KSI normalizer core with the KSI- prefix. -/
theorem nciCore_idem (l : List Char) :
    nciCore (nciCore l "KSI-".toList) "KSI-".toList = nciCore l "KSI-".toList := by
  have hlow : Lowered (nciCore l "KSI-".toList) := lowered_nciCore l _
  rw [nciCore_eq l "KSI-".toList] at hlow ⊢
  generalize hr : (if List.isPrefixOf "KSI-".toList l
      then l.drop ("KSI-".toList).length else l) = r at hlow ⊢
  by_cases h1 : 2 ≤ (splitD r).length
  · rw [if_pos h1] at hlow ⊢
    rw [nciCore_eq]
    rw [ksi_pref_false_of_lowered hlow]
    simp only [Bool.false_eq_true, if_false]
    have hnod : ∀ q ∈ (splitD r).map lowerStr, '-' ∉ q := by
      intro q hq
      simp only [List.mem_map] at hq
      obtain ⟨d, hd, rfl⟩ := hq
      exact no_dash_lowerStr (splitD_no_dash r d hd)
    have hne : (splitD r).map lowerStr ≠ [] := by
      intro hh
      exact splitD_ne_nil r (List.map_eq_nil_iff.mp hh)
    rw [splitD_joinD _ hne hnod]
    have hlen : 2 ≤ ((splitD r).map lowerStr).length := by simpa using h1
    rw [if_pos hlen]
    rw [map_lowerStr_self (fun q hq => by
      simp only [List.mem_map] at hq
      obtain ⟨d, _, rfl⟩ := hq
      exact lowered_lowerStr d)]
  · rw [if_neg h1] at hlow ⊢
    rw [nciCore_eq]
    rw [ksi_pref_false_of_lowered hlow]
    simp only [Bool.false_eq_true, if_false]
    by_cases h2 : '-' ∈ replaceU (lowerStr r)
    · have hlen := splitD_length_of_dash _ h2
      rw [if_pos hlen]
      rw [map_lowerStr_self (lowered_pieces hlow)]
      exact joinD_splitD _
    · rw [splitD_single _ h2]
      rw [if_neg (by simp : ¬ (2 ≤ ([replaceU (lowerStr r)] : List (List Char)).length))]
      rw [lowerStr_of_lowered hlow, replaceU_of_no_underscore (no_underscore_replaceU _)]

/-- Idempotence of the FRR normalizer core for any standard. -/
theorem nfciCore_idem (l std : List Char) :
    nfciCore (nfciCore l std) std = nfciCore l std := by
  have hlow : Lowered (nfciCore l std) := lowered_nfciCore l std
  have hdash : '-' ∈ nfciCore l std := dash_mem_nfciCore l std
  rw [nfciCore_eq (nfciCore l std) std]
  rw [frr_pref_false_of_lowered hlow]
  simp only [Bool.false_eq_true, if_false]
  have hlen := splitD_length_of_dash _ hdash
  rw [if_pos hlen, map_lowerStr_self (lowered_pieces hlow), joinD_splitD]

/-- Claim C6: both id normalizers are idempotent — applying
normalize_control_id with the KSI- prefix, or normalize_frr_control_id
with any fixed standard, a second time to its own output returns the
output unchanged. -/
theorem c6_idnormalizer_idempotent :
    (∀ s : String, normalize_control_id (normalize_control_id s "KSI-") "KSI-"
       = normalize_control_id s "KSI-")
    ∧ (∀ s standard : String,
       normalize_frr_control_id (normalize_frr_control_id s standard) standard
         = normalize_frr_control_id s standard) :=
  ⟨fun s => congrArg String.mk (nciCore_idem s.toList),
   fun s std => congrArg String.mk (nfciCore_idem s.toList std.toList)⟩

/-! ### Claim C7: ProseCleaner and identifier-interior underscores -/

theorem isAlnumC_ranges {c : Char} (h : isAlnumC c = true) :
    (65 ≤ c.toNat ∧ c.toNat ≤ 90) ∨ (97 ≤ c.toNat ∧ c.toNat ≤ 122)
      ∨ (48 ≤ c.toNat ∧ c.toNat ≤ 57) := by
  simp only [isAlnumC, Bool.or_eq_true, decide_eq_true_eq] at h
  tauto

theorem alnum_ne_char {c d : Char} (h : isAlnumC c = true)
    (hd : d.toNat < 48 ∨ (57 < d.toNat ∧ d.toNat < 65)
      ∨ (90 < d.toNat ∧ d.toNat < 97) ∨ 122 < d.toNat) : c ≠ d := by
  intro he
  have hr := isAlnumC_ranges h
  rw [he] at hr
  omega

theorem alnum_not_space {c : Char} (h : isAlnumC c = true) : isSpaceC c = false := by
  cases hs : isSpaceC c with
  | false => rfl
  | true =>
    exfalso
    have hr := isAlnumC_ranges h
    simp only [isSpaceC, Bool.or_eq_true, beq_iff_eq] at hs
    rcases hs with ((((h1 | h1) | h1) | h1) | h1) | h1
    all_goals rw [h1] at hr
    all_goals revert hr
    all_goals decide

theorem alnum_isWordC {c : Char} (h : isAlnumC c = true) : isWordC c = true := by
  simp [isWordC, h]

theorem alnum_ne_underscore {c : Char} (h : isAlnumC c = true) : c ≠ '_' :=
  alnum_ne_char h (by decide)

theorem dropWhile_space_head {l : List Char}
    (hh : ∀ c, l.head? = some c → isSpaceC c = false) :
    l.dropWhile isSpaceC = l := by
  cases l with
  | nil => rfl
  | cons c cs =>
    rw [List.dropWhile_cons, hh c rfl]
    simp

theorem pyStrip_eq_self {l : List Char}
    (hh : ∀ c, l.head? = some c → isSpaceC c = false)
    (hl : ∀ c, l.getLast? = some c → isSpaceC c = false) :
    pyStrip l = l := by
  have h2 : l.reverse.dropWhile isSpaceC = l.reverse := by
    apply dropWhile_space_head
    intro c hc
    rw [List.head?_reverse] at hc
    exact hl c hc
  unfold pyStrip
  rw [dropWhile_space_head hh, h2, List.reverse_reverse]

theorem stripPair_eq_self {q : Char} {l : List Char}
    (h : ∀ c, l.head? = some c → c ≠ q) : stripPair q l = l := by
  unfold stripPair
  rw [if_neg]
  rintro ⟨h1, -⟩
  cases l with
  | nil => exact Option.noConfusion h1
  | cons c cs => exact h c rfl (Option.some.inj h1)

theorem boldGo_eq_self {l : List Char} (h : '*' ∉ l) :
    ∀ fuel, boldGo fuel l = l := by
  induction l with
  | nil => intro fuel; cases fuel <;> rfl
  | cons c cs ih =>
    intro fuel
    cases fuel with
    | zero => rfl
    | succ n =>
      have hc : c ≠ '*' := fun hh => h (hh ▸ List.mem_cons_self c cs)
      have hcs : '*' ∉ cs := fun hm => h (List.mem_cons_of_mem c hm)
      simp only [boldGo]
      rw [if_neg fun hx => hc hx.1, ih hcs n]

theorem greedyClose1_eq_none {l : List Char} (h : '_' ∉ l) :
    greedyClose1 l = none := by
  induction l with
  | nil => rfl
  | cons c cs ih =>
    have hcs : '_' ∉ cs := fun hm => h (List.mem_cons_of_mem c hm)
    have hin : (if isAlnumC c || isSpaceC c then
        match greedyClose1 cs with
        | some (m, r) => some (c :: m, r)
        | none => none
       else none : Option (List Char × List Char)) = none := by
      rw [ih hcs]
      split <;> rfl
    have h2 : cs.head? ≠ some '_' := by
      cases cs with
      | nil => simp
      | cons d ds =>
        simp only [List.head?_cons, ne_eq, Option.some.injEq]
        intro hd
        exact h (hd ▸ List.mem_cons_of_mem c (List.mem_cons_self d ds))
    simp only [greedyClose1, hin]
    simp [h2]

theorem pass1Go_eq_self {l : List Char} (h : '_' ∉ l) :
    ∀ fuel, pass1Go fuel l = l := by
  induction l with
  | nil => intro fuel; cases fuel <;> rfl
  | cons c cs ih =>
    intro fuel
    cases fuel with
    | zero => rfl
    | succ n =>
      have hc : c ≠ '_' := fun hh => h (hh ▸ List.mem_cons_self c cs)
      have hcs : '_' ∉ cs := fun hm => h (List.mem_cons_of_mem c hm)
      simp only [pass1Go, if_neg hc]
      rw [ih hcs n]

theorem pass1Go_underscore {b : List Char} (hb : '_' ∉ b) :
    ∀ fuel, pass1Go fuel ('_' :: b) = '_' :: b := by
  intro fuel
  cases fuel with
  | zero => rfl
  | succ n =>
    simp only [pass1Go, if_pos rfl]
    cases b with
    | nil => rfl
    | cons c0 rest =>
      have hrest : '_' ∉ rest := fun hm => hb (List.mem_cons_of_mem c0 hm)
      show (if isAlnumC c0 then
          match greedyClose1 rest with
          | some (m, after) => (c0 :: m) ++ pass1Go n after
          | none => '_' :: pass1Go n (c0 :: rest)
        else '_' :: pass1Go n (c0 :: rest)) = '_' :: c0 :: rest
      cases hA : isAlnumC c0 with
      | false =>
        rw [if_neg (by simp [hA]), pass1Go_eq_self hb n]
      | true =>
        rw [if_pos (by simp [hA]), greedyClose1_eq_none hrest]
        show '_' :: pass1Go n (c0 :: rest) = '_' :: c0 :: rest
        rw [pass1Go_eq_self hb n]

theorem pass1Go_snake {b : List Char} (hbu : '_' ∉ b) :
    ∀ a : List Char, a ≠ [] → '_' ∉ a →
      ∀ fuel, pass1Go fuel (a ++ '_' :: b) = a ++ '_' :: b := by
  intro a
  induction a with
  | nil => intro h; exact absurd rfl h
  | cons c a' ih =>
    intro _ hau fuel
    have hc : c ≠ '_' := fun hh => hau (hh ▸ List.mem_cons_self c a')
    have hau' : '_' ∉ a' := fun hm => hau (List.mem_cons_of_mem c hm)
    cases fuel with
    | zero => rfl
    | succ n =>
      simp only [List.cons_append, pass1Go, if_neg hc, List.append_eq]
      cases a' with
      | nil =>
        simp only [List.nil_append]
        rw [pass1Go_underscore hbu n]
      | cons y a2 =>
        rw [ih (List.cons_ne_nil y a2) hau' n]

theorem pass2Go_eq_self {l : List Char} (h : '_' ∉ l) :
    ∀ fuel prev, pass2Go fuel prev l = l := by
  induction l with
  | nil => intro fuel prev; cases fuel <;> rfl
  | cons c cs ih =>
    intro fuel prev
    cases fuel with
    | zero => rfl
    | succ n =>
      have hc : c ≠ '_' := fun hh => h (hh ▸ List.mem_cons_self c cs)
      have hcs : '_' ∉ cs := fun hm => h (List.mem_cons_of_mem c hm)
      simp only [pass2Go, if_neg hc]
      rw [ih hcs n (isWordC c)]

theorem pass2Go_underscore {b : List Char} (hb : '_' ∉ b) :
    ∀ fuel, pass2Go fuel true ('_' :: b) = '_' :: b := by
  intro fuel
  cases fuel with
  | zero => rfl
  | succ n =>
    simp only [pass2Go, if_pos rfl]
    rw [pass2Go_eq_self hb n true]
    simp

theorem pass2Go_snake {b : List Char} (hb : '_' ∉ b) :
    ∀ a : List Char, a ≠ [] → (∀ c ∈ a, isAlnumC c = true) →
      ∀ fuel prev, pass2Go fuel prev (a ++ '_' :: b) = a ++ '_' :: b := by
  intro a
  induction a with
  | nil => intro hne; exact absurd rfl hne
  | cons x a' ih =>
    intro _ hA fuel prev
    have hx : isAlnumC x = true := hA x (List.mem_cons_self x a')
    have hxu : x ≠ '_' := alnum_ne_underscore hx
    cases fuel with
    | zero => rfl
    | succ n =>
      simp only [List.cons_append, pass2Go, if_neg hxu, List.append_eq]
      cases a' with
      | nil =>
        simp only [List.nil_append]
        rw [alnum_isWordC hx, pass2Go_underscore hb n]
      | cons y a2 =>
        rw [ih (List.cons_ne_nil y a2) (fun c hc => hA c (List.mem_cons_of_mem x hc)) n (isWordC x)]

theorem gc3Deeper_none (c : Char) : gc3Deeper c none = none := by
  unfold gc3Deeper
  split <;> rfl

theorem gc3Deeper_notword {c : Char} (h1 : isAlnumC c = false)
    (h2 : isSpaceC c = false) (r : Option (List Char × List Char)) :
    gc3Deeper c r = none := by
  simp [gc3Deeper, h1, h2]

theorem greedyClose3_eq_none (d : Char) (bs : List Char) (hd : isWordC d = true) :
    ∀ a : List Char, (∀ c ∈ a, isAlnumC c = true) →
      greedyClose3 (a ++ '_' :: d :: bs) = none := by
  intro a
  induction a with
  | nil =>
    intro _
    show (match gc3Deeper '_' (greedyClose3 (d :: bs)) with
      | some res => some res
      | none => gc3Close '_' (d :: bs)) = none
    rw [gc3Deeper_notword (by decide) (by decide)]
    show gc3Close '_' (d :: bs) = none
    simp [gc3Close, (by decide : isAlnumC '_' = false)]
  | cons x a' ih =>
    intro hA
    have hx : isAlnumC x = true := hA x (List.mem_cons_self x a')
    have hA' : ∀ c ∈ a', isAlnumC c = true := fun c hc => hA c (List.mem_cons_of_mem x hc)
    have hrec := ih hA'
    show (match gc3Deeper x (greedyClose3 (a' ++ '_' :: d :: bs)) with
      | some res => some res
      | none => gc3Close x (a' ++ '_' :: d :: bs)) = none
    rw [hrec, gc3Deeper_none]
    show gc3Close x (a' ++ '_' :: d :: bs) = none
    cases a' with
    | nil =>
      simp [gc3Close, hx, hd]
    | cons y a2 =>
      have hy' : y ≠ '_' := alnum_ne_underscore (hA' y (List.mem_cons_self y a2))
      simp [gc3Close, hy']

theorem pass3Go_allword {l : List Char} (h : ∀ c ∈ l, isWordC c = true) :
    ∀ fuel, pass3Go fuel true l = l := by
  induction l with
  | nil => intro fuel; cases fuel <;> rfl
  | cons c cs ih =>
    intro fuel
    cases fuel with
    | zero => rfl
    | succ n =>
      have hc : isWordC c = true := h c (List.mem_cons_self c cs)
      have hcs : ∀ x ∈ cs, isWordC x = true := fun x hx => h x (List.mem_cons_of_mem c hx)
      simp only [pass3Go, not_true, false_and, if_false]
      rw [hc, ih hcs n]

theorem pass3Go_snake {b : List Char} (hbne : b ≠ [])
    (hbA : ∀ c ∈ b, isAlnumC c = true)
    (x : Char) (a' : List Char) (hA : ∀ c ∈ x :: a', isAlnumC c = true) :
    ∀ fuel, pass3Go fuel false ((x :: a') ++ '_' :: b) = (x :: a') ++ '_' :: b := by
  obtain ⟨d, bs, rfl⟩ : ∃ d bs, b = d :: bs := by
    cases b with
    | nil => exact absurd rfl hbne
    | cons d bs => exact ⟨d, bs, rfl⟩
  intro fuel
  cases fuel with
  | zero => rfl
  | succ n =>
    have hx : isAlnumC x = true := hA x (List.mem_cons_self x a')
    have hA' : ∀ c ∈ a', isAlnumC c = true := fun c hc => hA c (List.mem_cons_of_mem x hc)
    have hd : isAlnumC d = true := hbA d (List.mem_cons_self d bs)
    have hgc : greedyClose3 (a' ++ '_' :: d :: bs) = none :=
      greedyClose3_eq_none d bs (alnum_isWordC hd) a' hA'
    have hword : ∀ c ∈ a' ++ '_' :: d :: bs, isWordC c = true := by
      intro c hc
      rcases List.mem_append.mp hc with h1 | h2
      · exact alnum_isWordC (hA' c h1)
      · rcases List.mem_cons.mp h2 with h3 | h4
        · rw [h3]; decide
        · exact alnum_isWordC (hbA c h4)
    simp only [List.cons_append, pass3Go, Bool.false_eq_true, not_false_eq_true,
      true_and, List.append_eq]
    rw [if_pos hx, hgc]
    show x :: pass3Go n (isWordC x) (a' ++ '_' :: d :: bs)
        = x :: (a' ++ '_' :: d :: bs)
    rw [alnum_isWordC hx, pass3Go_allword hword n]

theorem cleanCore_snake (a b : List Char) (ha : a ≠ []) (hb : b ≠ [])
    (haA : ∀ c ∈ a, isAlnumC c = true) (hbA : ∀ c ∈ b, isAlnumC c = true) :
    cleanCore (a ++ '_' :: b) = a ++ '_' :: b := by
  obtain ⟨x, a', rfl⟩ : ∃ x a', a = x :: a' := by
    cases a with
    | nil => exact absurd rfl ha
    | cons x a' => exact ⟨x, a', rfl⟩
  obtain ⟨b', y, rfl⟩ : ∃ b' y, b = b' ++ [y] := by
    rcases List.eq_nil_or_concat b with h | ⟨b', y, h⟩
    · exact absurd h hb
    · exact ⟨b', y, by rw [h, List.concat_eq_append]⟩
  have hx : isAlnumC x = true := haA x (List.mem_cons_self x a')
  have hy : isAlnumC y = true :=
    hbA y (List.mem_append_right b' (List.mem_singleton_self y))
  have hhead : ∀ c, ((x :: a') ++ '_' :: (b' ++ [y])).head? = some c → c = x := by
    intro c hc
    simp only [List.cons_append, List.head?_cons, Option.some.injEq] at hc
    exact hc.symm
  have hlast : ∀ c, ((x :: a') ++ '_' :: (b' ++ [y])).getLast? = some c → c = y := by
    intro c hc
    have he : (x :: a') ++ '_' :: (b' ++ [y]) = ((x :: a') ++ '_' :: b') ++ [y] := by
      simp
    rw [he, List.getLast?_concat] at hc
    exact (Option.some.inj hc).symm
  have hmemchar : ∀ c ∈ (x :: a') ++ '_' :: (b' ++ [y]), isAlnumC c = true ∨ c = '_' := by
    intro c hc
    rcases List.mem_append.mp hc with h1 | h2
    · exact Or.inl (haA c h1)
    · rcases List.mem_cons.mp h2 with h3 | h4
      · exact Or.inr h3
      · exact Or.inl (hbA c h4)
  have h1 : pyStrip ((x :: a') ++ '_' :: (b' ++ [y])) = (x :: a') ++ '_' :: (b' ++ [y]) := by
    apply pyStrip_eq_self
    · intro c hc; rw [hhead c hc]; exact alnum_not_space hx
    · intro c hc; rw [hlast c hc]; exact alnum_not_space hy
  have h2 : stripPair '"' ((x :: a') ++ '_' :: (b' ++ [y]))
      = (x :: a') ++ '_' :: (b' ++ [y]) :=
    stripPair_eq_self fun c hc => by
      rw [hhead c hc]; exact alnum_ne_char hx (by decide)
  have h3 : stripPair '\'' ((x :: a') ++ '_' :: (b' ++ [y]))
      = (x :: a') ++ '_' :: (b' ++ [y]) :=
    stripPair_eq_self fun c hc => by
      rw [hhead c hc]; exact alnum_ne_char hx (by decide)
  have hstar : '*' ∉ (x :: a') ++ '_' :: (b' ++ [y]) := by
    intro hm
    rcases hmemchar '*' hm with h | h
    · exact absurd h (by decide)
    · exact absurd h (by decide)
  have hau : '_' ∉ x :: a' := fun hm => absurd (haA '_' hm) (by decide)
  have hbu : '_' ∉ b' ++ [y] := fun hm => absurd (hbA '_' hm) (by decide)
  have h4 : boldGo ((x :: a') ++ '_' :: (b' ++ [y])).length ((x :: a') ++ '_' :: (b' ++ [y]))
      = (x :: a') ++ '_' :: (b' ++ [y]) :=
    boldGo_eq_self hstar _
  have h5 : pass1Go ((x :: a') ++ '_' :: (b' ++ [y])).length ((x :: a') ++ '_' :: (b' ++ [y]))
      = (x :: a') ++ '_' :: (b' ++ [y]) :=
    pass1Go_snake hbu (x :: a') (List.cons_ne_nil x a') hau _
  have h6 : pass2Go ((x :: a') ++ '_' :: (b' ++ [y])).length false ((x :: a') ++ '_' :: (b' ++ [y]))
      = (x :: a') ++ '_' :: (b' ++ [y]) :=
    pass2Go_snake hbu (x :: a') (List.cons_ne_nil x a') haA _ false
  have h7 : pass3Go ((x :: a') ++ '_' :: (b' ++ [y])).length false ((x :: a') ++ '_' :: (b' ++ [y]))
      = (x :: a') ++ '_' :: (b' ++ [y]) :=
    pass3Go_snake (by simp) hbA x a' haA _
  have hne : (x :: a') ++ '_' :: (b' ++ [y]) ≠ [] := by simp
  unfold cleanCore
  rw [if_neg hne]
  simp only [h1, h2, h3, h4, h5, h6, h7]

/-- Claim C7 counterexample: clean_prose removes interior underscores of
the identifier foo_bar_baz, although each of its two underscores has an
alphanumeric character immediately on both sides; the first underscore
pass matches a pair of underscores with no word-boundary requirement. -/
theorem c7_counterexample :
    clean_prose (String.mk ['f', 'o', 'o', '_', 'b', 'a', 'r', '_', 'b', 'a', 'z'])
        = String.mk ['f', 'o', 'o', 'b', 'a', 'r', 'b', 'a', 'z']
      ∧ isAlnumC 'o' = true ∧ isAlnumC 'b' = true
      ∧ isAlnumC 'r' = true ∧ isAlnumC 'z' = true := by
  refine ⟨?_, by decide, by decide, by decide, by decide⟩
  rfl

/-- Claim C7 (amended): a single underscore interior to an identifier
(a nonempty run of alphanumerics immediately on both sides, forming the
whole text) is left in place by clean_prose: the first pass needs a
second underscore, the second pass needs a non-word character before the
underscore, and the third pass needs a non-word character after it. With
two or more interior underscores the first pass fires (see the
counterexample), so the spec sentence does not hold for every input. -/
theorem c7_interior_underscore_amended (a b : List Char)
    (ha : a ≠ []) (hb : b ≠ [])
    (haA : ∀ c ∈ a, isAlnumC c = true) (hbA : ∀ c ∈ b, isAlnumC c = true) :
    clean_prose (String.mk (a ++ '_' :: b)) = String.mk (a ++ '_' :: b) :=
  congrArg String.mk (cleanCore_snake a b ha hb haA hbA)

/-- Witness for the amended C7 theorem at the identifier snake_case. -/
theorem c7_interior_underscore_amended_witness :
    (['s', 'n', 'a', 'k', 'e'] : List Char) ≠ []
      ∧ (['c', 'a', 's', 'e'] : List Char) ≠ []
      ∧ (∀ c ∈ (['s', 'n', 'a', 'k', 'e'] : List Char), isAlnumC c = true)
      ∧ (∀ c ∈ (['c', 'a', 's', 'e'] : List Char), isAlnumC c = true)
      ∧ clean_prose (String.mk (['s', 'n', 'a', 'k', 'e'] ++ '_' :: ['c', 'a', 's', 'e']))
          = String.mk (['s', 'n', 'a', 'k', 'e'] ++ '_' :: ['c', 'a', 's', 'e']) :=
  ⟨by decide, by decide, by decide, by decide,
    c7_interior_underscore_amended _ _ (by decide) (by decide) (by decide) (by decide)⟩

end FRMR
